import Mathlib

/-!
# Verification of the markviewer rendering core

Shallow embedding of the Rust rendering pipeline of the `markviewer`
repository (`src/src-tauri/src/`): the special-block extractor
(`markdown/special_blocks.rs`), the image path resolver
(`markdown/images.rs`), the render orchestrator (`commands.rs`), the
syntax-highlighter dispatch (`markdown/highlighter.rs`) and the comrak
adapter hooks (`markdown/parser.rs`).

Strings are modelled as `List Char` (`Str`), mirroring Rust's `&str`
operations at character granularity; all definitions are computable.
External library calls (comrak's Markdown engine, syntect's HTML
generator, the filesystem `canonicalize`) are either function parameters
or, where a claim speaks about their guaranteed shape, modelled from the
spec and flagged as such in the doc comment.
-/

set_option maxHeartbeats 1000000
set_option maxRecDepth 10000

/-- Character strings, at `char` granularity (Rust `&str` / `String`). -/
abbrev Str := List Char

/-- Rust `char::is_whitespace` (restricted to the ASCII whitespace that
`Char.isWhitespace` knows; the inputs relevant to the fence scanner only
use these). -/
def wsChar (c : Char) : Bool := c.isWhitespace

/-- Rust `str::trim_start`. -/
def trimStartL (l : Str) : Str := l.dropWhile wsChar

/-- Rust `str::trim_end`. -/
def trimEndL (l : Str) : Str := (l.reverse.dropWhile wsChar).reverse

/-- Rust `str::trim`. -/
def trimL (l : Str) : Str := trimEndL (trimStartL l)

/-- Rust `str::to_lowercase` (ASCII; the tags compared here are ASCII). -/
def toLowerL (l : Str) : Str := l.map Char.toLower

/-- Rust `str::lines` piece iterator with endings kept
(`str::split_inclusive('\n')`). -/
def linesWithEndings (s : Str) : List Str :=
  s.foldr
    (fun c acc =>
      if c = '\n' then ['\n'] :: acc
      else
        match acc with
        | [] => [[c]]
        | l :: ls => (c :: l) :: ls)
    []

/-- The per-line map of Rust `str::lines`: strip a final `'\n'`, and a
`'\r'` just before it. -/
def chompLine (l : Str) : Str :=
  if l.getLast? = some '\n' then
    let l' := l.dropLast
    if l'.getLast? = some '\r' then l'.dropLast else l'
  else l

/-- Rust `str::lines`. -/
def rustLines (s : Str) : List Str := (linesWithEndings s).map chompLine

/-- Fuel-indexed decimal rendering (structural recursion so that the
kernel can evaluate it). -/
def natCharsAux : Nat → Nat → Str
  | 0, _ => []
  | f + 1, n =>
    if n < 10 then [Nat.digitChar n]
    else natCharsAux f (n / 10) ++ [Nat.digitChar (n % 10)]

/-- Decimal rendering of a `Nat`, as Rust's `Display` for `usize`
(used by `format!("special-block-{}", n)`). -/
def natChars (n : Nat) : Str := natCharsAux (n + 1) n

theorem natCharsAux_congr : ∀ f₁ f₂ n, n < f₁ → n < f₂ →
    natCharsAux f₁ n = natCharsAux f₂ n := by
  intro f₁
  induction f₁ with
  | zero => intro f₂ n h; omega
  | succ f ih =>
    intro f₂ n h₁ h₂
    match f₂, h₂ with
    | f₂' + 1, h₂ =>
      simp only [natCharsAux]
      by_cases h10 : n < 10
      · simp [h10]
      · simp only [if_neg h10]
        have hd : n / 10 < n := Nat.div_lt_self (by omega) (by omega)
        rw [ih f₂' (n / 10) (by omega) (by omega)]

/-- The defining equation of `natChars`, fuel-free. -/
theorem natChars_eq (n : Nat) :
    natChars n =
      if n < 10 then [Nat.digitChar n]
      else natChars (n / 10) ++ [Nat.digitChar (n % 10)] := by
  show natCharsAux (n + 1) n = _
  by_cases h10 : n < 10
  · simp [natCharsAux, h10]
  · simp only [natCharsAux, if_neg h10]
    rw [natCharsAux_congr n (n / 10 + 1) (n / 10) (by omega) (by omega)]
    rfl

/-- `SpecialBlock` from `markdown/special_blocks.rs`. -/
structure SpecialBlock where
  block_type : Str
  content : Str
  placeholder_id : Str
deriving Repr, DecidableEq

/-- The backtick fence marker. -/
def btFence : Str := "```".data

/-- The tilde fence marker. -/
def tdFence : Str := "~~~".data

/-- The placeholder id `format!("special-block-{}", counter)`. -/
def placeholderId (n : Nat) : Str := "special-block-".data ++ natChars n

/-- The placeholder div
`format!("<div class=\"special-block {}\" id=\"{}\" data-block-type=\"{}\"></div>\n", lang, id, lang)`. -/
def placeholderDiv (lang id : Str) : Str :=
  "<div class=\"special-block ".data ++ lang ++ "\" id=\"".data ++ id
    ++ "\" data-block-type=\"".data ++ lang ++ "\"></div>\n".data

/-- The mutable locals of `extract_special_blocks`. -/
structure ExtractState where
  blocks : List SpecialBlock
  result : Str
  in_code_block : Bool
  code_fence : Str
  code_lang : Str
  code_content : Str
  block_counter : Nat
deriving Repr, DecidableEq

/-- Initial state of the scan. -/
def initState : ExtractState :=
  { blocks := []
    result := []
    in_code_block := false
    code_fence := []
    code_lang := []
    code_content := []
    block_counter := 0 }

/-- One iteration of the `for line in markdown.lines()` loop of
`extract_special_blocks`. -/
def processLine (st : ExtractState) (line : Str) : ExtractState :=
  let trimmed := trimStartL line
  let is_backtick_fence := btFence.isPrefixOf trimmed
  let is_tilde_fence := tdFence.isPrefixOf trimmed
  if is_backtick_fence || is_tilde_fence then
    let fence := if is_backtick_fence then btFence else tdFence
    if st.in_code_block && st.code_fence.isPrefixOf trimmed then
      -- End of code block (matching fence type)
      let lang_lower := toLowerL st.code_lang
      if lang_lower = "mermaid".data ∨ lang_lower = "chart".data then
        let pid := placeholderId st.block_counter
        let blk : SpecialBlock :=
          { block_type := lang_lower, content := trimL st.code_content,
            placeholder_id := pid }
        { st with
          blocks := st.blocks ++ [blk]
          result := st.result ++ placeholderDiv lang_lower pid
          in_code_block := false
          code_fence := []
          code_lang := []
          code_content := []
          block_counter := st.block_counter + 1 }
      else
        -- Regular code block - keep for comrak to process
        { st with
          result := st.result ++ st.code_fence ++ st.code_lang ++ '\n' ::
            (st.code_content ++ st.code_fence ++ ['\n'])
          in_code_block := false
          code_fence := []
          code_lang := []
          code_content := [] }
    else if st.in_code_block = false then
      -- Start of code block
      { st with
        in_code_block := true
        code_fence := fence
        code_lang := trimL (trimmed.drop 3) }
    else
      -- Inside a code block but different fence type - treat as content
      { st with code_content := st.code_content ++ line ++ ['\n'] }
  else if st.in_code_block then
    { st with code_content := st.code_content ++ line ++ ['\n'] }
  else
    { st with result := st.result ++ line ++ ['\n'] }

/-- `extract_special_blocks` from `markdown/special_blocks.rs`. -/
def extract_special_blocks (markdown : Str) : Str × List SpecialBlock :=
  let st := (rustLines markdown).foldl processLine initState
  let st :=
    if st.in_code_block then
      -- Handle unclosed code block (shouldn't happen in valid markdown)
      { st with result := st.result ++ st.code_fence ++ st.code_lang ++ '\n' ::
          st.code_content }
    else st
  (st.result, st.blocks)

example :
    extract_special_blocks "```mermaid\ngraph LR\n```".data =
      (placeholderDiv "mermaid".data (placeholderId 0),
       [{ block_type := "mermaid".data, content := "graph LR".data,
          placeholder_id := "special-block-0".data }]) := by decide

example :
    extract_special_blocks "```rust\nfn main() {}\n```".data =
      ("```rust\nfn main() {}\n```\n".data, []) := by decide

/-! ## Image path resolver (`markdown/images.rs`) -/

/-- The sentinel local-path marker `"__LOCAL_FILE__:"`. -/
def LOCAL_FILE : Str := "__LOCAL_FILE__:".data

/-- Rust `Path::parent` (common cases; the `Path` component normalization
for trailing separators is not modelled — no claim depends on it). -/
def parentPath (p : Str) : Option Str :=
  if p = [] then none
  else if p.all (· = '/') then none
  else
    let r := p.reverse
    let tail := r.dropWhile (· ≠ '/')
    if tail = [] then some []          -- no separator: parent is ""
    else if tail.drop 1 = [] then some ['/']  -- only a leading "/"
    else some (tail.drop 1).reverse

/-- Rust `Path::join` for a relative right-hand side. -/
def joinPath (b s : Str) : Str :=
  if b = [] then s
  else if b.getLast? = some '/' then b ++ s
  else b ++ '/' :: s

/-- `resolve_single_path` from `markdown/images.rs`.  `canon` stands for
the filesystem call `Path::canonicalize` (`none` = `Err`), which is
outside the pure core. -/
def resolve_single_path (canon : Str → Option Str) (src base_path : Str) : Str :=
  -- Already an absolute URL
  if "http://".data.isPrefixOf src || "https://".data.isPrefixOf src then src
  -- Data URI - pass through
  else if "data:".data.isPrefixOf src then src
  -- Asset protocol - pass through (already converted by frontend)
  else if "asset://".data.isPrefixOf src then src
  -- Already a file:// URI - extract path
  else if "file://".data.isPrefixOf src then src.drop 7
  -- Absolute path (Unix style) - return as-is with marker
  else if "/".data.isPrefixOf src then LOCAL_FILE ++ src
  -- Windows absolute path (e.g., C:\...)
  else if 2 ≤ src.length ∧ src.get? 1 = some ':' then
    LOCAL_FILE ++ src.map (fun c => if c = '\\' then '/' else c)
  else
    -- Relative path - resolve against base directory
    let base_dir := (parentPath base_path).getD base_path
    let resolved := joinPath base_dir src
    -- Try to canonicalize, fall back to joined path
    LOCAL_FILE ++ ((canon resolved).getD resolved)

/-- Completion of an `<img ...>` match after its `src="` was located:
the regex groups `([^"]+)"([^>]*)>`. -/
def matchSrcTail (r : Str) : Option (Str × Str × Str) :=
  let src := r.takeWhile (· ≠ '"')
  if src = [] then none
  else
    match r.dropWhile (· ≠ '"') with
    | '"' :: r3 =>
      let after := r3.takeWhile (· ≠ '>')
      match r3.dropWhile (· ≠ '>') with
      | '>' :: rest => some (src, after, rest)
      | _ => none
    | _ => none

/-- The lazy group `([^>]*?)src="..."` of the image regex: scan forward for
`src="` (trying, in regex backtracking order, each position in turn),
collecting the skipped characters, refusing to cross a `'>'`. -/
def findSrcAttr : Str → Option (Str × Str × Str × Str)
  | [] => none
  | c :: t =>
    if "src=\"".data.isPrefixOf (c :: t) then
      match matchSrcTail ((c :: t).drop 5) with
      | some (src, a, rest) => some ([], src, a, rest)
      | none =>
        if c = '>' then none
        else match findSrcAttr t with
             | some (g, src, a, rest) => some (c :: g, src, a, rest)
             | none => none
    else if c = '>' then none
    else match findSrcAttr t with
         | some (g, src, a, rest) => some (c :: g, src, a, rest)
         | none => none

/-- Attempted match of `<img\s+([^>]*?)src="([^"]+)"([^>]*)>` at the head
of `s`. -/
def tryMatchImg (s : Str) : Option (Str × Str × Str × Str) :=
  if "<img".data.isPrefixOf s then
    match s.drop 4 with
    | c :: t => if wsChar c then findSrcAttr (t.dropWhile wsChar) else none
    | [] => none
  else none

/-- Rust `str::trim_end_matches('/')`. -/
def trimEndSlashes (l : Str) : Str := (l.reverse.dropWhile (· = '/')).reverse

/-- The replacement string built for one `<img>` match. -/
def emitImg (resolved before after : Str) : Str :=
  let after_clean := trimL (trimEndSlashes after)
  if after_clean = [] then
    "<img ".data ++ before ++ "src=\"".data ++ resolved ++ "\" />".data
  else
    "<img ".data ++ before ++ "src=\"".data ++ resolved ++ "\" ".data
      ++ after_clean ++ " />".data

/-- The `Regex::replace_all` scan (leftmost-first, non-overlapping); the
fuel argument only bounds recursion and is always supplied large enough. -/
def imgScan : Nat → (Str → Str) → Str → Str
  | 0, _, s => s
  | fuel + 1, res, s =>
    match tryMatchImg s with
    | some (before, src, after, rest) =>
      emitImg (res src) before after ++ imgScan fuel res rest
    | none =>
      match s with
      | [] => []
      | c :: t => c :: imgScan fuel res t

/-- `resolve_image_paths` from `markdown/images.rs`. -/
def resolve_image_paths (canon : Str → Option Str) (html base_path : Str) : Str :=
  imgScan (html.length + 1)
    (fun src => resolve_single_path canon src base_path) html

/-! ## Render orchestrator (`commands.rs`) -/

/-- `RenderOptions` from `commands.rs`. -/
structure RenderOptions where
  theme : Str
  base_path : Option Str

/-- `RenderResult` from `commands.rs`. -/
structure RenderResult where
  html : Str
  special_blocks : List SpecialBlock

/-- `render_markdown` from `commands.rs`.  `renderHtml` stands for the
external Markdown engine call `render_markdown_html` (comrak), `canon`
for the filesystem canonicalization used by the resolver; the
orchestration itself is the repository's code. -/
def render_markdown (renderHtml : Str → Str) (canon : Str → Option Str)
    (markdown : Str) (options : RenderOptions) : Except Str RenderResult :=
  -- 1. Extract special blocks (mermaid, chart) before parsing
  let extracted := extract_special_blocks markdown
  let processed_md := extracted.1
  let special_blocks := extracted.2
  -- 2. Render markdown to HTML with comrak
  let html := renderHtml processed_md
  -- 3. Resolve image paths if base_path is provided
  let html :=
    match options.base_path with
    | some base_path => resolve_image_paths canon html base_path
    | none => html
  Except.ok { html := html, special_blocks := special_blocks }

/-! ## The comrak adapter hooks (`markdown/parser.rs`)

`write_pre_tag`/`write_code_tag` receive the tag attributes from comrak as
a `HashMap`; its iteration order is unspecified, so the embedding takes
the attribute sequence in iteration order as an explicit list. -/

/-- `SyntectAdapter::write_pre_tag`. -/
def write_pre_tag (attributes : List (Str × Str)) : Str :=
  let attrs_str := attributes.foldl
    (fun acc kv => acc ++ ' ' :: (kv.1 ++ '=' :: '"' :: (kv.2 ++ ['"']))) []
  "<pre".data ++ attrs_str ++ ['>']

/-- `SyntectAdapter::write_code_tag`. -/
def write_code_tag (attributes : List (Str × Str)) : Str :=
  let attrs_str := attributes.foldl
    (fun acc kv => acc ++ ' ' :: (kv.1 ++ '=' :: '"' :: (kv.2 ++ ['"']))) []
  "<code".data ++ attrs_str ++ ['>']

example :
    resolve_single_path (fun _ => none) "https://a.com/i.png".data
      "/d/f.md".data = "https://a.com/i.png".data := by decide

example :
    resolve_single_path (fun _ => none) "/pics/i.png".data "/d/f.md".data
      = "__LOCAL_FILE__:/pics/i.png".data := by decide

example :
    resolve_single_path (fun _ => none) "i.png".data "/d/f.md".data
      = "__LOCAL_FILE__:/d/i.png".data := by decide

example :
    resolve_image_paths (fun _ => none)
      "<img src=\"x.png\">".data "/d/f.md".data
      = "<img src=\"__LOCAL_FILE__:/d/x.png\" />".data := by decide

/-! ## Syntax highlighter (`markdown/highlighter.rs`)

The resolution chain and the per-line loop are the repository's code.
The grammar registry and the classed HTML generator are `syntect`
library code, not under `src/`; they are modelled from the spec (§4.2):
each lexical token of a line is wrapped in a `<span>` carrying class
names, with the token text HTML-escaped, and the tokens of a line
concatenate back to the line. -/

/-- Modelled from the spec: a grammar resolved from the registry; its
`tokenize` is the library tokenizer, producing `(classes, text)` runs
for one line. -/
structure GrammarDef where
  tokenize : Str → List (Str × Str)

/-- Modelled from the spec: the lazily-initialized grammar registry
(`SYNTAX_SET`), with lookup by exact token and by file extension, and
the plain-text grammar. -/
structure GrammarRegistry where
  find_by_token : Str → Option GrammarDef
  find_by_extension : Str → Option GrammarDef
  plain_text : GrammarDef

/-- The resolution chain of `highlight_code`:
`find_syntax_by_token(lang).or_else(.. by_extension(lang)).unwrap_or_else(plain_text)`. -/
def findGrammar (reg : GrammarRegistry) (lang : Str) : GrammarDef :=
  ((reg.find_by_token lang).orElse (fun _ => reg.find_by_extension lang)).getD
    reg.plain_text

/-- Modelled from the spec: the generator's HTML escaping. -/
def escapeHtml (s : Str) : Str :=
  s.foldr
    (fun c acc =>
      if c = '&' then "&amp;".data ++ acc
      else if c = '<' then "&lt;".data ++ acc
      else if c = '>' then "&gt;".data ++ acc
      else c :: acc)
    []

/-- Modelled from the spec: one classed token run emitted by the
generator. -/
def spanHtml (cls text : Str) : Str :=
  "<span class=\"".data ++ cls ++ '"' :: '>' ::
    (escapeHtml text ++ "</span>".data)

/-- Modelled from the spec: the HTML the generator appends for one line
(`parse_html_for_line_which_includes_newline`). -/
def lineHtml (g : GrammarDef) (line : Str) : Str :=
  ((g.tokenize line).map (fun kv => spanHtml kv.1 kv.2)).flatten

/-- `highlight_code` from `markdown/highlighter.rs`: resolve the grammar,
feed each line (with its ending) to the generator, return the
accumulated HTML. -/
def highlight_code (reg : GrammarRegistry) (code lang : Str) : Str :=
  let g := findGrammar reg lang
  (linesWithEndings code).foldl (fun acc line => acc ++ lineHtml g line) []

/-- Tag stripper used to state "the textual content survives": drops
every `<...>` tag from an HTML string. -/
def stripTagsAux : Bool → Str → Str
  | _, [] => []
  | false, c :: t => if c = '<' then stripTagsAux true t else c :: stripTagsAux false t
  | true, c :: t => if c = '>' then stripTagsAux false t else stripTagsAux true t

/-- Drop every `<...>` tag. -/
def stripTags (s : Str) : Str := stripTagsAux false s

/-- Inverse of `escapeHtml`: decode `&amp;`, `&lt;`, `&gt;`. -/
def unescapeHtml : Str → Str
  | [] => []
  | c :: t =>
    if c = '&' then
      if "amp;".data.isPrefixOf t then '&' :: unescapeHtml (t.drop 4)
      else if "lt;".data.isPrefixOf t then '<' :: unescapeHtml (t.drop 3)
      else if "gt;".data.isPrefixOf t then '>' :: unescapeHtml (t.drop 3)
      else c :: unescapeHtml t
    else c :: unescapeHtml t
  termination_by s => s.length
  decreasing_by all_goals (simp [List.length_drop]; try omega)

/-! ## Substring occurrence counting -/

/-- Number of positions of `s` at which `p` occurs as a contiguous
substring. -/
def countSub (p : Str) : Str → Nat
  | [] => 0
  | c :: t => (if p.isPrefixOf (c :: t) then 1 else 0) + countSub p t

theorem isPrefixOf_extend {p x y : Str} (h : p.isPrefixOf x = true) :
    p.isPrefixOf (x ++ y) = true := by
  induction p generalizing x with
  | nil => simp [List.isPrefixOf]
  | cons a p' ih =>
    cases x with
    | nil => simp [List.isPrefixOf] at h
    | cons b x' =>
      simp only [List.isPrefixOf, Bool.and_eq_true, beq_iff_eq] at h ⊢
      exact ⟨h.1, ih h.2⟩

theorem isPrefixOf_self_append (a b : Str) : a.isPrefixOf (a ++ b) = true := by
  induction a with
  | nil => simp [List.isPrefixOf]
  | cons c a' ih => simp [List.isPrefixOf, ih]

theorem isPrefixOf_append_cancel (l a b : Str) :
    (l ++ a).isPrefixOf (l ++ b) = a.isPrefixOf b := by
  induction l with
  | nil => rfl
  | cons c l' ih => simp [List.isPrefixOf, ih]

theorem isPrefixOf_trans {p q x : Str} (h₁ : p.isPrefixOf q = true)
    (h₂ : q.isPrefixOf x = true) : p.isPrefixOf x = true := by
  induction p generalizing q x with
  | nil => simp [List.isPrefixOf]
  | cons a p' ih =>
    cases q with
    | nil => simp [List.isPrefixOf] at h₁
    | cons b q' =>
      cases x with
      | nil => simp [List.isPrefixOf] at h₂
      | cons c x' =>
        simp only [List.isPrefixOf, Bool.and_eq_true, beq_iff_eq] at h₁ h₂ ⊢
        exact ⟨h₁.1.trans h₂.1, ih h₁.2 h₂.2⟩

theorem countSub_le_append_left (p a b : Str) :
    countSub p b ≤ countSub p (a ++ b) := by
  induction a with
  | nil => simp
  | cons c a' ih =>
    calc countSub p b ≤ countSub p (a' ++ b) := ih
    _ ≤ _ := by
      simp only [List.cons_append, countSub, List.append_eq]
      omega

theorem countSub_le_append_right (p a b : Str) :
    countSub p a ≤ countSub p (a ++ b) := by
  induction a with
  | nil => simp [countSub]
  | cons c a' ih =>
    simp only [List.cons_append, countSub, List.append_eq]
    have hind : (if p.isPrefixOf (c :: a') = true then 1 else 0) ≤
        (if p.isPrefixOf (c :: (a' ++ b)) = true then 1 else 0) := by
      by_cases h : p.isPrefixOf (c :: a') = true
      · have h2 : p.isPrefixOf ((c :: a') ++ b) = true := isPrefixOf_extend h
        rw [List.cons_append] at h2
        simp [h, h2]
      · simp [h]
    omega

theorem countSub_zero_of_infix {p l m : Str} (hm : countSub p m = 0)
    (h : l <:+: m) : countSub p l = 0 := by
  obtain ⟨u, v, rfl⟩ := h
  rw [List.append_assoc] at hm
  have h₁ := countSub_le_append_left p u (l ++ v)
  have h₂ := countSub_le_append_right p l v
  omega

theorem countSub_mono_pattern {p q : Str} (h : p.isPrefixOf q = true)
    (s : Str) : countSub q s ≤ countSub p s := by
  induction s with
  | nil => simp [countSub]
  | cons c t ih =>
    simp only [countSub]
    have : (if q.isPrefixOf (c :: t) then 1 else 0) ≤
        (if p.isPrefixOf (c :: t) then 1 else 0) := by
      by_cases hq : q.isPrefixOf (c :: t) = true
      · have := isPrefixOf_trans h hq
        simp_all
      · simp [hq]
    omega

theorem countSub_cons_ne {p : Str} {h₀ c : Char} {pr : Str}
    (hp : p = h₀ :: pr) (hne : h₀ ≠ c) (t : Str) :
    countSub p (c :: t) = countSub p t := by
  subst hp
  have hbeq : (h₀ == c) = false := beq_eq_false_iff_ne.mpr hne
  have hpre : (h₀ :: pr).isPrefixOf (c :: t) = false := by
    simp [List.isPrefixOf, hbeq]
  simp [countSub, hpre]

theorem countSub_skip_head {p : Str} {h₀ : Char} {pr A : Str}
    (hp : p = h₀ :: pr) (hA : ∀ c ∈ A, c ≠ h₀) (t : Str) :
    countSub p (A ++ t) = countSub p t := by
  induction A with
  | nil => rfl
  | cons c A' ih =>
    have hc : h₀ ≠ c := Ne.symm (hA c (by simp))
    rw [List.cons_append, countSub_cons_ne hp hc]
    exact ih (fun x hx => hA x (by simp [hx]))

theorem isPrefixOf_of_append_getLast {x p b : Str}
    (hx : x.getLast? = some '\n') (hnl : '\n' ∉ p)
    (h : p.isPrefixOf (x ++ b) = true) : p.isPrefixOf x = true := by
  induction x generalizing p with
  | nil => simp at hx
  | cons c x' ih =>
    cases p with
    | nil => simp [List.isPrefixOf]
    | cons a p' =>
      simp only [List.cons_append, List.isPrefixOf, Bool.and_eq_true,
        beq_iff_eq] at h ⊢
      cases x' with
      | nil =>
        have hc : c = '\n' := by simpa using hx
        have ha : a = '\n' := h.1.trans hc
        exact absurd
          (show '\n' ∈ a :: p' by rw [ha]; exact List.mem_cons_self _ _) hnl
      | cons d x'' =>
        rw [List.getLast?_cons_cons] at hx
        exact ⟨h.1, ih hx (fun hm => hnl (List.mem_cons_of_mem a hm)) h.2⟩

theorem isPrefixOf_of_append_singleton_nl {x p : Str} (hnl : '\n' ∉ p)
    (h : p.isPrefixOf (x ++ ['\n']) = true) : p.isPrefixOf x = true := by
  induction x generalizing p with
  | nil =>
    cases p with
    | nil => simp [List.isPrefixOf]
    | cons a p' =>
      simp only [List.nil_append, List.isPrefixOf, Bool.and_eq_true,
        beq_iff_eq] at h
      exact absurd
        (show '\n' ∈ a :: p' by rw [h.1]; exact List.mem_cons_self _ _) hnl
  | cons c x' ih =>
    cases p with
    | nil => simp [List.isPrefixOf]
    | cons a p' =>
      simp only [List.cons_append, List.isPrefixOf, Bool.and_eq_true,
        beq_iff_eq] at h ⊢
      exact ⟨h.1, ih (fun hm => hnl (List.mem_cons_of_mem a hm)) h.2⟩

theorem countSub_append_singleton_nl {p : Str} {h₀ : Char} {pr : Str}
    (hp : p = h₀ :: pr) (hnl : '\n' ∉ p) (a : Str) :
    countSub p (a ++ ['\n']) = countSub p a := by
  induction a with
  | nil =>
    have : p.isPrefixOf ['\n'] = false := by
      subst hp
      by_cases h : h₀ = '\n'
      · exact absurd (h ▸ List.mem_cons_self h₀ pr) (h ▸ hnl)
      · simp [List.isPrefixOf, h]
    simp [countSub, this]
  | cons c a' ih =>
    simp only [List.cons_append, countSub, List.append_eq, ih]
    have : p.isPrefixOf (c :: (a' ++ ['\n'])) = p.isPrefixOf (c :: a') := by
      by_cases h : p.isPrefixOf (c :: a') = true
      · rw [h]
        exact isPrefixOf_extend (y := ['\n']) h
      · by_cases h2 : p.isPrefixOf (c :: (a' ++ ['\n'])) = true
        · exact absurd
            (isPrefixOf_of_append_singleton_nl hnl
              (by simpa using h2)) h
        · simp only [Bool.not_eq_true] at h h2
          rw [h, h2]
    simp only [this]

theorem countSub_append_of_getLast_nl {p : Str} {h₀ : Char} {pr : Str}
    (hp : p = h₀ :: pr) (hnl : '\n' ∉ p) {a : Str}
    (ha : a = [] ∨ a.getLast? = some '\n') (b : Str) :
    countSub p (a ++ b) = countSub p a + countSub p b := by
  rcases ha with rfl | ha
  · simp [countSub]
  induction a generalizing b with
  | nil => simp at ha
  | cons c a' ih =>
    cases a' with
    | nil =>
      simp only [List.getLast?_singleton, Option.some_inj] at ha
      subst ha
      have hind : p.isPrefixOf ('\n' :: b) = false := by
        subst hp
        by_cases h : h₀ = '\n'
        · exact absurd (h ▸ List.mem_cons_self h₀ pr) (h ▸ hnl)
        · simp [List.isPrefixOf, h]
      have hind₂ : p.isPrefixOf ['\n'] = false := by
        subst hp
        by_cases h : h₀ = '\n'
        · exact absurd (h ▸ List.mem_cons_self h₀ pr) (h ▸ hnl)
        · simp [List.isPrefixOf, h]
      simp [countSub, hind, hind₂]
    | cons d a'' =>
      rw [List.getLast?_cons_cons] at ha
      have hrec := ih b ha
      have heq : p.isPrefixOf (c :: ((d :: a'') ++ b)) =
          p.isPrefixOf (c :: d :: a'') := by
        by_cases h : p.isPrefixOf (c :: d :: a'') = true
        · rw [h]
          have := isPrefixOf_extend (x := c :: d :: a'') (y := b) h
          rw [List.cons_append] at this
          exact this
        · by_cases h2 : p.isPrefixOf (c :: ((d :: a'') ++ b)) = true
          · have hlast : (c :: d :: a'').getLast? = some '\n' := by
              rw [List.getLast?_cons_cons]; exact ha
            exact absurd
              (isPrefixOf_of_append_getLast hlast hnl
                (by rw [List.cons_append]; exact h2)) h
          · simp only [Bool.not_eq_true] at h h2
            rw [h, h2]
      simp only [List.cons_append, List.append_eq] at heq
      simp only [List.cons_append, countSub, List.append_eq] at hrec ⊢
      simp only [heq]
      omega

theorem countSub_append_cons_nl {p : Str} {h₀ : Char} {pr : Str}
    (hp : p = h₀ :: pr) (hnl : '\n' ∉ p) (a b : Str) :
    countSub p (a ++ '\n' :: b) = countSub p a + countSub p b := by
  have h1 : a ++ '\n' :: b = (a ++ ['\n']) ++ b := by simp
  rw [h1, countSub_append_of_getLast_nl hp hnl
    (Or.inr (by simp [List.getLast?_concat])),
    countSub_append_singleton_nl hp hnl]

theorem countSub_cons (p : Str) (c : Char) (t : Str) :
    countSub p (c :: t) =
      (if p.isPrefixOf (c :: t) = true then 1 else 0) + countSub p t := rfl

/-- A decidable sufficient condition that a pattern starting with the
three characters `p1 p2 p3` cannot begin at any position of `A`,
whatever follows `A`. -/
def noStart3 (p1 p2 p3 : Char) : Str → Bool
  | [] => true
  | a :: rest =>
    (match rest with
     | b :: c :: _ => a != p1 || b != p2 || c != p3
     | [b] => a != p1 || b != p2
     | [] => a != p1) && noStart3 p1 p2 p3 rest

theorem countSub_skip_noStart3 {p : Str} {p1 p2 p3 : Char} {pr : Str}
    (hp : p = p1 :: p2 :: p3 :: pr) {A : Str}
    (hA : noStart3 p1 p2 p3 A = true) (t : Str) :
    countSub p (A ++ t) = countSub p t := by
  induction A with
  | nil => rfl
  | cons a rest ih =>
    simp only [noStart3, Bool.and_eq_true] at hA
    obtain ⟨h1, h2⟩ := hA
    rw [List.cons_append, countSub_cons]
    have hpre : p.isPrefixOf (a :: (rest ++ t)) = false := by
      subst hp
      cases rest with
      | nil =>
        simp only [bne_iff_ne, ne_eq, decide_eq_true_eq] at h1
        have : (p1 == a) = false := beq_eq_false_iff_ne.mpr (Ne.symm h1)
        simp [List.isPrefixOf, this]
      | cons b rest' =>
        cases rest' with
        | nil =>
          simp only [Bool.or_eq_true, bne_iff_ne, ne_eq] at h1
          rcases h1 with h1 | h1
          · have : (p1 == a) = false := beq_eq_false_iff_ne.mpr (Ne.symm h1)
            simp [List.isPrefixOf, this]
          · have : (p2 == b) = false := beq_eq_false_iff_ne.mpr (Ne.symm h1)
            simp [List.isPrefixOf, this]
        | cons c rest'' =>
          simp only [Bool.or_eq_true, bne_iff_ne, ne_eq] at h1
          rcases h1 with (h1 | h1) | h1
          · have : (p1 == a) = false := beq_eq_false_iff_ne.mpr (Ne.symm h1)
            simp [List.isPrefixOf, this]
          · have : (p2 == b) = false := beq_eq_false_iff_ne.mpr (Ne.symm h1)
            simp [List.isPrefixOf, this]
          · have : (p3 == c) = false := beq_eq_false_iff_ne.mpr (Ne.symm h1)
            simp [List.isPrefixOf, this]
    rw [hpre]
    simp only [if_neg (by simp : ¬(false = true)), Nat.zero_add]
    exact ih h2

/-! ## Decimal digit facts -/

theorem digitChar_toNat {d : Nat} (h : d < 10) :
    (Nat.digitChar d).toNat = 48 + d := by
  interval_cases d <;> rfl

theorem natChars_digits (n : Nat) :
    ∀ c ∈ natChars n, 48 ≤ c.toNat ∧ c.toNat ≤ 57 := by
  induction n using Nat.strong_induction_on with
  | _ n ih =>
    rw [natChars_eq]
    by_cases h : n < 10
    · simp only [if_pos h, List.mem_singleton]
      intro c hc
      subst hc
      rw [digitChar_toNat h]
      omega
    · simp only [if_neg h]
      intro c hc
      rw [List.mem_append] at hc
      rcases hc with hc | hc
      · exact ih (n / 10) (Nat.div_lt_self (by omega) (by omega)) c hc
      · rw [List.mem_singleton] at hc
        subst hc
        rw [digitChar_toNat (Nat.mod_lt _ (by omega))]
        have := Nat.mod_lt n (show 0 < 10 by omega)
        omega

theorem natChars_ne_nil (n : Nat) : natChars n ≠ [] := by
  rw [natChars_eq]
  by_cases h : n < 10 <;> simp [h]

/-- Decimal parse, the left inverse of `natChars`. -/
def parseDigits (l : Str) : Nat := l.foldl (fun a c => 10 * a + (c.toNat - 48)) 0

theorem parseDigits_natChars (n : Nat) : parseDigits (natChars n) = n := by
  induction n using Nat.strong_induction_on with
  | _ n ih =>
    rw [natChars_eq]
    by_cases h : n < 10
    · simp only [if_pos h, parseDigits, List.foldl_cons, List.foldl_nil]
      rw [digitChar_toNat h]
      omega
    · simp only [if_neg h, parseDigits, List.foldl_append, List.foldl_cons,
        List.foldl_nil]
      have hrec := ih (n / 10) (Nat.div_lt_self (by omega) (by omega))
      rw [show (List.foldl (fun a c => 10 * a + (c.toNat - 48)) 0
          (natChars (n / 10))) = parseDigits (natChars (n / 10)) from rfl, hrec]
      rw [digitChar_toNat (Nat.mod_lt _ (by omega))]
      have := Nat.div_add_mod n 10
      omega

theorem natChars_inj {m n : Nat} (h : natChars m = natChars n) : m = n := by
  have hm := parseDigits_natChars m
  rw [h, parseDigits_natChars] at hm
  exact hm.symm

/-- A digit string followed by `'"'` is a prefix of another digit string
followed by `'"'` (and anything further) exactly when the digit strings
coincide. -/
theorem isPrefixOf_digits_quote {D E : Str}
    (hD : ∀ c ∈ D, 48 ≤ c.toNat ∧ c.toNat ≤ 57)
    (hE : ∀ c ∈ E, 48 ≤ c.toNat ∧ c.toNat ≤ 57) (t : Str) :
    (D ++ ['"']).isPrefixOf (E ++ '"' :: t) = true ↔ D = E := by
  constructor
  · intro h
    induction D generalizing E with
    | nil =>
      cases E with
      | nil => rfl
      | cons e E' =>
        simp only [List.nil_append, List.cons_append, List.isPrefixOf,
          Bool.and_eq_true, beq_iff_eq] at h
        have hd := hE e (by simp)
        rw [← h.1] at hd
        simp at hd
    | cons d D' ih =>
      cases E with
      | nil =>
        simp only [List.cons_append, List.nil_append, List.isPrefixOf,
          Bool.and_eq_true, beq_iff_eq] at h
        have hd := hD d (by simp)
        rw [h.1] at hd
        simp at hd
      | cons e E' =>
        simp only [List.cons_append, List.isPrefixOf, Bool.and_eq_true,
          beq_iff_eq] at h
        have := ih (fun c hc => hD c (by simp [hc]))
          (fun c hc => hE c (by simp [hc])) h.2
        rw [h.1, this]
  · rintro rfl
    rw [show D ++ '"' :: t = (D ++ ['"']) ++ t by simp]
    exact isPrefixOf_self_append _ _

/-! ## Counting occurrences inside a placeholder div -/

/-- The generic placeholder id marker `id="special-block-`. -/
def IdMarker : Str := "id=\"special-block-".data

/-- The id attribute of the `n`-th placeholder, `id="special-block-n"`,
closing quote included. -/
def idOcc (n : Nat) : Str := "id=\"".data ++ placeholderId n ++ ['"']

theorem idOcc_eq (n : Nat) :
    idOcc n = IdMarker ++ (natChars n ++ ['"']) := rfl

/-- The shell of a placeholder div around its id attribute, for the two
reserved block types. -/
def divHeadM : Str := "<div class=\"special-block mermaid\" ".data

def divTailM : Str := " data-block-type=\"mermaid\"></div>\n".data

def divHeadC : Str := "<div class=\"special-block chart\" ".data

def divTailC : Str := " data-block-type=\"chart\"></div>\n".data

theorem placeholderDiv_decomp_m (j : Nat) :
    placeholderDiv "mermaid".data (placeholderId j) =
      divHeadM ++ (IdMarker ++ (natChars j ++ '"' :: divTailM)) := by
  simp only [placeholderDiv, placeholderId, IdMarker, divHeadM, divTailM,
    List.append_assoc]
  rfl

theorem placeholderDiv_decomp_c (j : Nat) :
    placeholderDiv "chart".data (placeholderId j) =
      divHeadC ++ (IdMarker ++ (natChars j ++ '"' :: divTailC)) := by
  simp only [placeholderDiv, placeholderId, IdMarker, divHeadC, divTailC,
    List.append_assoc]
  rfl

theorem countSub_div_generic {P T : Str}
    (hP : noStart3 'i' 'd' '=' P = true)
    (hT : noStart3 'i' 'd' '=' T = true) {p pr : Str}
    (hp : p = 'i' :: 'd' :: '=' :: pr) (j : Nat) :
    countSub p (P ++ (IdMarker ++ (natChars j ++ '"' :: T))) =
      if p.isPrefixOf (IdMarker ++ (natChars j ++ '"' :: T)) = true
      then 1 else 0 := by
  rw [countSub_skip_noStart3 hp hP]
  rw [show IdMarker ++ (natChars j ++ '"' :: T) =
      'i' :: ("d=\"special-block-".data ++ (natChars j ++ '"' :: T)) from rfl]
  rw [countSub_cons]
  rw [countSub_skip_noStart3 hp (by decide)]
  rw [countSub_skip_head hp
    (fun c hc => by
      intro hceq
      have := natChars_digits j c hc
      rw [hceq] at this
      simp at this)]
  rw [countSub_cons_ne hp (by decide)]
  have hT0 : countSub p T = 0 := by
    rw [← List.append_nil T, countSub_skip_noStart3 hp hT]
    rfl
  rw [hT0, Nat.add_zero]

theorem IdMarker_cons :
    IdMarker = 'i' :: 'd' :: '=' :: "\"special-block-".data := rfl

theorem idOcc_cons (k : Nat) :
    idOcc k = 'i' :: 'd' :: '=' ::
      ("\"special-block-".data ++ (natChars k ++ ['"'])) := rfl

theorem nl_not_mem_IdMarker : '\n' ∉ IdMarker := by decide

theorem nl_not_mem_idOcc (k : Nat) : '\n' ∉ idOcc k := by
  rw [idOcc_eq]
  intro h
  rcases List.mem_append.mp h with h | h
  · exact nl_not_mem_IdMarker h
  · rcases List.mem_append.mp h with h | h
    · have := natChars_digits k _ h
      simp at this
    · simp at h

theorem IdMarker_isPrefixOf_idOcc (k : Nat) :
    IdMarker.isPrefixOf (idOcc k) = true := by
  rw [idOcc_eq]
  exact isPrefixOf_self_append _ _

theorem countSub_IdMarker_div {L : Str}
    (hL : L = "mermaid".data ∨ L = "chart".data) (j : Nat) :
    countSub IdMarker (placeholderDiv L (placeholderId j)) = 1 := by
  rcases hL with rfl | rfl
  · rw [placeholderDiv_decomp_m,
      countSub_div_generic (by decide) (by decide) IdMarker_cons j]
    rw [if_pos (isPrefixOf_self_append _ _)]
  · rw [placeholderDiv_decomp_c,
      countSub_div_generic (by decide) (by decide) IdMarker_cons j]
    rw [if_pos (isPrefixOf_self_append _ _)]

theorem countSub_idOcc_div {L : Str}
    (hL : L = "mermaid".data ∨ L = "chart".data) (i j : Nat) :
    countSub (idOcc i) (placeholderDiv L (placeholderId j)) =
      if i = j then 1 else 0 := by
  have key : ∀ T : Str,
      ((idOcc i).isPrefixOf (IdMarker ++ (natChars j ++ '"' :: T)) = true)
        ↔ i = j := by
    intro T
    rw [idOcc_eq, isPrefixOf_append_cancel]
    rw [isPrefixOf_digits_quote (natChars_digits i) (natChars_digits j)]
    constructor
    · exact natChars_inj
    · rintro rfl; rfl
  rcases hL with rfl | rfl
  · rw [placeholderDiv_decomp_m,
      countSub_div_generic (by decide) (by decide) (idOcc_cons i) j]
    by_cases hij : i = j
    · rw [if_pos ((key _).mpr hij), if_pos hij]
    · rw [if_neg (fun h => hij ((key _).mp h)), if_neg hij]
  · rw [placeholderDiv_decomp_c,
      countSub_div_generic (by decide) (by decide) (idOcc_cons i) j]
    by_cases hij : i = j
    · rw [if_pos ((key _).mpr hij), if_pos hij]
    · rw [if_neg (fun h => hij ((key _).mp h)), if_neg hij]

theorem placeholderDiv_getLast {L : Str} (j : Nat) :
    (placeholderDiv L (placeholderId j)).getLast? = some '\n' := by
  have : placeholderDiv L (placeholderId j) =
      ("<div class=\"special-block ".data ++ L ++ "\" id=\"".data
        ++ placeholderId j ++ "\" data-block-type=\"".data ++ L
        ++ "\"></div>".data) ++ ['\n'] := by
    simp [placeholderDiv, List.append_assoc]
  rw [this, List.getLast?_concat]

/-! ## Branch characterizations of `processLine` -/

theorem processLine_outside {st : ExtractState} {line : Str}
    (hbt : btFence.isPrefixOf (trimStartL line) = false)
    (htd : tdFence.isPrefixOf (trimStartL line) = false)
    (hic : st.in_code_block = false) :
    processLine st line = { st with result := st.result ++ line ++ ['\n'] } := by
  simp [processLine, hbt, htd, hic]

theorem processLine_contentLine {st : ExtractState} {line : Str}
    (hbt : btFence.isPrefixOf (trimStartL line) = false)
    (htd : tdFence.isPrefixOf (trimStartL line) = false)
    (hic : st.in_code_block = true) :
    processLine st line =
      { st with code_content := st.code_content ++ line ++ ['\n'] } := by
  simp [processLine, hbt, htd, hic]

theorem processLine_mismatch {st : ExtractState} {line : Str}
    (hfence : btFence.isPrefixOf (trimStartL line) = true ∨
      tdFence.isPrefixOf (trimStartL line) = true)
    (hic : st.in_code_block = true)
    (hnp : st.code_fence.isPrefixOf (trimStartL line) = false) :
    processLine st line =
      { st with code_content := st.code_content ++ line ++ ['\n'] } := by
  rcases hfence with h | h <;>
    simp [processLine, h, hic, hnp]

theorem processLine_open {st : ExtractState} {line : Str}
    (hfence : btFence.isPrefixOf (trimStartL line) = true ∨
      tdFence.isPrefixOf (trimStartL line) = true)
    (hic : st.in_code_block = false) :
    processLine st line =
      { st with
        in_code_block := true
        code_fence := if btFence.isPrefixOf (trimStartL line) then btFence
          else tdFence
        code_lang := trimL ((trimStartL line).drop 3) } := by
  rcases hfence with h | h
  · simp [processLine, h, hic]
  · by_cases hb : btFence.isPrefixOf (trimStartL line) = true
    · simp [processLine, hb, hic]
    · simp only [Bool.not_eq_true] at hb
      simp [processLine, h, hb, hic]

theorem processLine_close_reserved {st : ExtractState} {line : Str}
    (hic : st.in_code_block = true)
    (hcf : st.code_fence = btFence ∨ st.code_fence = tdFence)
    (hpre : st.code_fence.isPrefixOf (trimStartL line) = true)
    (hres : toLowerL st.code_lang = "mermaid".data ∨
      toLowerL st.code_lang = "chart".data) :
    processLine st line =
      { st with
        blocks := st.blocks ++
          [{ block_type := toLowerL st.code_lang
             content := trimL st.code_content
             placeholder_id := placeholderId st.block_counter }]
        result := st.result ++ placeholderDiv (toLowerL st.code_lang)
          (placeholderId st.block_counter)
        in_code_block := false
        code_fence := []
        code_lang := []
        code_content := []
        block_counter := st.block_counter + 1 } := by
  rcases hcf with hcf | hcf
  · have hbt : btFence.isPrefixOf (trimStartL line) = true := hcf ▸ hpre
    simp [processLine, hbt, hic, hpre, hres]
  · have htd : tdFence.isPrefixOf (trimStartL line) = true := hcf ▸ hpre
    by_cases hbt : btFence.isPrefixOf (trimStartL line) = true
    · simp [processLine, hbt, hic, hpre, hres]
    · simp only [Bool.not_eq_true] at hbt
      simp [processLine, htd, hbt, hic, hpre, hres]

theorem processLine_close_regular {st : ExtractState} {line : Str}
    (hic : st.in_code_block = true)
    (hcf : st.code_fence = btFence ∨ st.code_fence = tdFence)
    (hpre : st.code_fence.isPrefixOf (trimStartL line) = true)
    (hres : ¬(toLowerL st.code_lang = "mermaid".data ∨
      toLowerL st.code_lang = "chart".data)) :
    processLine st line =
      { st with
        result := st.result ++ st.code_fence ++ st.code_lang ++ '\n' ::
          (st.code_content ++ st.code_fence ++ ['\n'])
        in_code_block := false
        code_fence := []
        code_lang := []
        code_content := [] } := by
  rcases hcf with hcf | hcf
  · have hbt : btFence.isPrefixOf (trimStartL line) = true := hcf ▸ hpre
    simp [processLine, hbt, hic, hpre, hres]
  · have htd : tdFence.isPrefixOf (trimStartL line) = true := hcf ▸ hpre
    by_cases hbt : btFence.isPrefixOf (trimStartL line) = true
    · simp [processLine, hbt, hic, hpre, hres]
    · simp only [Bool.not_eq_true] at hbt
      simp [processLine, htd, hbt, hic, hpre, hres]

/-! ## Infix facts about the string helpers -/

theorem trimEndL_isPrefix (l : Str) : trimEndL l <+: l := by
  have h := List.dropWhile_suffix (l := l.reverse) wsChar
  have h2 := List.reverse_prefix.mpr h
  rwa [List.reverse_reverse] at h2

theorem trimStartL_isSuffix (l : Str) : trimStartL l <:+ l :=
  List.dropWhile_suffix wsChar

theorem trimL_isInfix (l : Str) : trimL l <:+: l :=
  ((trimEndL_isPrefix (trimStartL l)).isInfix).trans
    (trimStartL_isSuffix l).isInfix

theorem codeLang_isInfix (line : Str) :
    trimL ((trimStartL line).drop 3) <:+: line :=
  ((trimL_isInfix _).trans (List.drop_suffix 3 _).isInfix).trans
    (trimStartL_isSuffix line).isInfix

theorem dropLast_isPrefix (l : List α) : l.dropLast <+: l := by
  induction l with
  | nil => simp
  | cons a t ih =>
    cases t with
    | nil => simp
    | cons b t' =>
      rw [List.dropLast_cons₂]
      exact (List.cons_prefix_cons).mpr ⟨rfl, ih⟩

theorem chompLine_isPrefix (l : Str) : chompLine l <+: l := by
  unfold chompLine
  by_cases h1 : l.getLast? = some '\n'
  · simp only [if_pos h1]
    by_cases h2 : l.dropLast.getLast? = some '\r'
    · simp only [if_pos h2]
      exact (dropLast_isPrefix _).trans (dropLast_isPrefix _)
    · simp only [if_neg h2]
      exact dropLast_isPrefix _
  · simp only [if_neg h1]
    exact List.prefix_refl l

theorem flatten_linesWithEndings (s : Str) :
    (linesWithEndings s).flatten = s := by
  induction s with
  | nil => rfl
  | cons c t ih =>
    show (if c = '\n' then ['\n'] :: linesWithEndings t
      else match linesWithEndings t with
      | [] => [[c]]
      | l :: ls => (c :: l) :: ls).flatten = c :: t
    by_cases h : c = '\n'
    · rw [if_pos h, List.flatten_cons, ih, h]
      rfl
    · rw [if_neg h]
      rcases hlwe : linesWithEndings t with _ | ⟨l, ls⟩
      · rw [hlwe] at ih
        simp only [List.flatten_nil] at ih
        show ([[c]] : List Str).flatten = c :: t
        simp [← ih]
      · rw [hlwe] at ih
        simp only [List.flatten_cons] at ih
        show ((c :: l) :: ls).flatten = c :: t
        rw [List.flatten_cons, List.cons_append, ih]

theorem rustLines_isInfix {md l : Str} (h : l ∈ rustLines md) : l <:+: md := by
  rw [rustLines, List.mem_map] at h
  obtain ⟨e, he, rfl⟩ := h
  have h1 : e <:+: md := by
    rw [← flatten_linesWithEndings md]
    exact List.infix_of_mem_flatten he
  exact ((chompLine_isPrefix e).isInfix).trans h1

theorem countSub_rustLines_zero {p md : Str} (hmd : countSub p md = 0) :
    ∀ l ∈ rustLines md, countSub p l = 0 :=
  fun _ hl => countSub_zero_of_infix hmd (rustLines_isInfix hl)

/-! ## The extraction invariant for claim C2 -/

/-- Invariant carried through the line scan of `extract_special_blocks`,
for inputs that never contain the `id="special-block-` marker text. -/
structure ExtractInv (st : ExtractState) : Prop where
  len : st.blocks.length = st.block_counter
  ids : st.blocks.map SpecialBlock.placeholder_id
      = (List.range st.block_counter).map placeholderId
  rend : st.result = [] ∨ st.result.getLast? = some '\n'
  cM : countSub IdMarker st.result = st.block_counter
  cO : ∀ k, countSub (idOcc k) st.result
      = if k < st.block_counter then 1 else 0
  ccM : countSub IdMarker st.code_content = 0
  clM : countSub IdMarker st.code_lang = 0
  cend : st.code_content = [] ∨ st.code_content.getLast? = some '\n'
  fenceKind : st.in_code_block = true →
    st.code_fence = btFence ∨ st.code_fence = tdFence

theorem ExtractInv_init : ExtractInv initState := by
  refine ⟨rfl, rfl, Or.inl rfl, rfl, ?_, rfl, rfl, Or.inl rfl, ?_⟩
  · intro k
    show countSub (idOcc k) [] = if k < 0 then 1 else 0
    rw [if_neg (by omega)]
    rfl
  · intro h
    simp [initState] at h

theorem ExtractInv_processLine {st : ExtractState} {line : Str}
    (hInv : ExtractInv st) (hline : countSub IdMarker line = 0) :
    ExtractInv (processLine st line) := by
  have hnlM := nl_not_mem_IdMarker
  have hlineO : ∀ k, countSub (idOcc k) line = 0 := fun k =>
    Nat.le_zero.mp
      (hline ▸ countSub_mono_pattern (IdMarker_isPrefixOf_idOcc k) line)
  have hcontent : ExtractInv
      { st with code_content := st.code_content ++ line ++ ['\n'] } := by
    refine ⟨hInv.len, hInv.ids, hInv.rend, hInv.cM, hInv.cO, ?_, hInv.clM,
      ?_, hInv.fenceKind⟩
    · show countSub IdMarker (st.code_content ++ line ++ ['\n']) = 0
      rw [countSub_append_singleton_nl IdMarker_cons hnlM,
        countSub_append_of_getLast_nl IdMarker_cons hnlM hInv.cend,
        hInv.ccM, hline]
    · exact Or.inr (List.getLast?_concat _)
  by_cases hfl : btFence.isPrefixOf (trimStartL line) = true ∨
      tdFence.isPrefixOf (trimStartL line) = true
  · by_cases hic : st.in_code_block = true
    · by_cases hcp : st.code_fence.isPrefixOf (trimStartL line) = true
      · have hcf := hInv.fenceKind hic
        by_cases hres : toLowerL st.code_lang = "mermaid".data ∨
            toLowerL st.code_lang = "chart".data
        · rw [processLine_close_reserved hic hcf hcp hres]
          have hne : placeholderDiv (toLowerL st.code_lang)
              (placeholderId st.block_counter) ≠ [] := by
            intro hdiv
            have h2 := placeholderDiv_getLast (L := toLowerL st.code_lang)
              st.block_counter
            rw [hdiv] at h2
            simp at h2
          refine ⟨?_, ?_, ?_, ?_, ?_, rfl, rfl, Or.inl rfl, ?_⟩
          · show (st.blocks ++ [_]).length = st.block_counter + 1
            simp [hInv.len]
          · show (st.blocks ++ [_]).map SpecialBlock.placeholder_id =
              (List.range (st.block_counter + 1)).map placeholderId
            rw [List.map_append, hInv.ids, List.range_succ, List.map_append]
            rfl
          · exact Or.inr (by
              rw [List.getLast?_append_of_ne_nil _ hne]
              exact placeholderDiv_getLast _)
          · show countSub IdMarker (st.result ++ _) = st.block_counter + 1
            rw [countSub_append_of_getLast_nl IdMarker_cons hnlM hInv.rend,
              hInv.cM, countSub_IdMarker_div hres]
          · intro k
            show countSub (idOcc k) (st.result ++ placeholderDiv
                (toLowerL st.code_lang) (placeholderId st.block_counter)) =
              if k < st.block_counter + 1 then 1 else 0
            rw [countSub_append_of_getLast_nl (idOcc_cons k)
                (nl_not_mem_idOcc k) hInv.rend,
              hInv.cO k, countSub_idOcc_div hres k st.block_counter]
            by_cases h1 : k < st.block_counter
            · rw [if_pos h1, if_neg (by omega), if_pos (by omega)]
            · by_cases h2 : k = st.block_counter
              · rw [if_neg h1, if_pos h2, if_pos (by omega)]
              · rw [if_neg h1, if_neg h2, if_neg (by omega)]
          · intro h
            simp at h
        · rw [processLine_close_regular hic hcf hcp hres]
          have hfcne : ∀ c ∈ st.code_fence, c ≠ 'i' := by
            rcases hcf with h | h <;> rw [h] <;> decide
          have key : ∀ (p : Str) (h₀ : Char) (pr : Str), p = h₀ :: pr →
              '\n' ∉ p → (∀ c ∈ st.code_fence, c ≠ h₀) →
              countSub p st.code_lang = 0 → countSub p st.code_content = 0 →
              countSub p (st.result ++ st.code_fence ++ st.code_lang ++ '\n' ::
                (st.code_content ++ st.code_fence ++ ['\n'])) =
              countSub p st.result := by
            intro p h₀ pr hp hnl hfc hl0 hc0
            rw [countSub_append_cons_nl hp hnl,
              List.append_assoc st.result st.code_fence st.code_lang,
              countSub_append_of_getLast_nl hp hnl hInv.rend,
              countSub_skip_head hp hfc, hl0,
              countSub_append_singleton_nl hp hnl,
              countSub_append_of_getLast_nl hp hnl hInv.cend, hc0,
              show countSub p st.code_fence =
                countSub p (st.code_fence ++ []) by rw [List.append_nil],
              countSub_skip_head hp hfc]
            simp [countSub]
          refine ⟨hInv.len, hInv.ids, ?_, ?_, ?_, rfl, rfl, Or.inl rfl, ?_⟩
          · refine Or.inr ?_
            show ((st.result ++ st.code_fence ++ st.code_lang) ++
              '\n' :: (st.code_content ++ st.code_fence ++ ['\n'])).getLast?
                = some '\n'
            rw [List.getLast?_append_of_ne_nil _ (List.cons_ne_nil _ _),
              ← List.cons_append, List.getLast?_concat]
          · show countSub IdMarker _ = st.block_counter
            rw [key IdMarker 'i' _ IdMarker_cons hnlM hfcne hInv.clM hInv.ccM]
            exact hInv.cM
          · intro k
            have hlO : countSub (idOcc k) st.code_lang = 0 :=
              Nat.le_zero.mp (hInv.clM ▸
                countSub_mono_pattern (IdMarker_isPrefixOf_idOcc k) _)
            have hcO' : countSub (idOcc k) st.code_content = 0 :=
              Nat.le_zero.mp (hInv.ccM ▸
                countSub_mono_pattern (IdMarker_isPrefixOf_idOcc k) _)
            show countSub (idOcc k) _ = _
            rw [key (idOcc k) 'i' _ (idOcc_cons k) (nl_not_mem_idOcc k)
              hfcne hlO hcO']
            exact hInv.cO k
          · intro h
            simp at h
      · rw [processLine_mismatch hfl hic (Bool.not_eq_true _ ▸ hcp)]
        exact hcontent
    · rw [processLine_open hfl (Bool.not_eq_true _ ▸ hic)]
      refine ⟨hInv.len, hInv.ids, hInv.rend, hInv.cM, hInv.cO, hInv.ccM, ?_,
        hInv.cend, ?_⟩
      · exact countSub_zero_of_infix hline (codeLang_isInfix line)
      · intro _
        by_cases hb : btFence.isPrefixOf (trimStartL line) = true
        · left; simp [hb]
        · right; simp [hb]
  · push_neg at hfl
    obtain ⟨h1, h2⟩ := hfl
    by_cases hic : st.in_code_block = true
    · rw [processLine_contentLine (Bool.not_eq_true _ ▸ h1)
        (Bool.not_eq_true _ ▸ h2) hic]
      exact hcontent
    · rw [processLine_outside (Bool.not_eq_true _ ▸ h1)
        (Bool.not_eq_true _ ▸ h2) (Bool.not_eq_true _ ▸ hic)]
      refine ⟨hInv.len, hInv.ids, Or.inr (List.getLast?_concat _), ?_, ?_,
        hInv.ccM, hInv.clM, hInv.cend, hInv.fenceKind⟩
      · show countSub IdMarker (st.result ++ line ++ ['\n']) = st.block_counter
        rw [countSub_append_singleton_nl IdMarker_cons hnlM,
          countSub_append_of_getLast_nl IdMarker_cons hnlM hInv.rend,
          hInv.cM, hline, Nat.add_zero]
      · intro k
        show countSub (idOcc k) (st.result ++ line ++ ['\n']) =
          if k < st.block_counter then 1 else 0
        rw [countSub_append_singleton_nl (idOcc_cons k) (nl_not_mem_idOcc k),
          countSub_append_of_getLast_nl (idOcc_cons k) (nl_not_mem_idOcc k)
            hInv.rend,
          hInv.cO k, hlineO k, Nat.add_zero]

theorem ExtractInv_foldl {lines : List Str} {st : ExtractState}
    (hInv : ExtractInv st)
    (hclean : ∀ l ∈ lines, countSub IdMarker l = 0) :
    ExtractInv (lines.foldl processLine st) := by
  induction lines generalizing st with
  | nil => exact hInv
  | cons l ls ih =>
    exact ih (ExtractInv_processLine hInv (hclean l (by simp)))
      (fun x hx => hclean x (by simp [hx]))

theorem countSub_flush (st : ExtractState) (hInv : ExtractInv st)
    (hcf : st.code_fence = btFence ∨ st.code_fence = tdFence)
    (p : Str) (pr : Str) (hp : p = 'i' :: pr)
    (hnl : '\n' ∉ p) (hl0 : countSub p st.code_lang = 0)
    (hc0 : countSub p st.code_content = 0) :
    countSub p (st.result ++ st.code_fence ++ st.code_lang ++ '\n' ::
      st.code_content) = countSub p st.result := by
  have hfc : ∀ c ∈ st.code_fence, c ≠ 'i' := by
    rcases hcf with h | h <;> rw [h] <;> decide
  rw [countSub_append_cons_nl hp hnl,
    List.append_assoc st.result st.code_fence st.code_lang,
    countSub_append_of_getLast_nl hp hnl hInv.rend,
    countSub_skip_head hp hfc, hl0, hc0]
  omega

/-- C2 (amended): for every markdown input that does not already contain
the placeholder id marker `id="special-block-` as a substring,
`extract_special_blocks` returns blocks whose placeholder ids are exactly
`special-block-0`, `special-block-1`, … in document order, the processed
output contains exactly N placeholder id occurrences (N = number of
blocks), and the id of the k-th block occurs exactly once in the output
while ids `special-block-k` with `k ≥ N` do not occur at all. -/
theorem c2_placeholder_ids_and_occurrences (md : Str)
    (hclean : countSub IdMarker md = 0) :
    (extract_special_blocks md).2.map SpecialBlock.placeholder_id
      = (List.range (extract_special_blocks md).2.length).map placeholderId
    ∧ countSub IdMarker (extract_special_blocks md).1
        = (extract_special_blocks md).2.length
    ∧ (∀ k, countSub (idOcc k) (extract_special_blocks md).1
        = if k < (extract_special_blocks md).2.length then 1 else 0) := by
  have hInv : ExtractInv ((rustLines md).foldl processLine initState) :=
    ExtractInv_foldl ExtractInv_init (countSub_rustLines_zero hclean)
  set stf := (rustLines md).foldl processLine initState with hstf
  by_cases hic : stf.in_code_block = true
  · have hcf := hInv.fenceKind hic
    have hfinal : extract_special_blocks md =
        (stf.result ++ stf.code_fence ++ stf.code_lang ++ '\n' ::
          stf.code_content, stf.blocks) := by
      simp only [extract_special_blocks]
      rw [← hstf, if_pos hic]
    rw [hfinal]
    refine ⟨?_, ?_, ?_⟩
    · show stf.blocks.map _ = (List.range stf.blocks.length).map _
      rw [hInv.ids, hInv.len]
    · show countSub IdMarker (stf.result ++ stf.code_fence ++ stf.code_lang
        ++ '\n' :: stf.code_content) = stf.blocks.length
      rw [countSub_flush stf hInv hcf IdMarker _ IdMarker_cons
        nl_not_mem_IdMarker hInv.clM hInv.ccM, hInv.cM]
      exact hInv.len.symm
    · intro k
      have hlO : countSub (idOcc k) stf.code_lang = 0 :=
        Nat.le_zero.mp (hInv.clM ▸
          countSub_mono_pattern (IdMarker_isPrefixOf_idOcc k) _)
      have hcO' : countSub (idOcc k) stf.code_content = 0 :=
        Nat.le_zero.mp (hInv.ccM ▸
          countSub_mono_pattern (IdMarker_isPrefixOf_idOcc k) _)
      show countSub (idOcc k) (stf.result ++ stf.code_fence ++ stf.code_lang
        ++ '\n' :: stf.code_content) = if k < stf.blocks.length then 1 else 0
      rw [countSub_flush stf hInv hcf (idOcc k) _ (idOcc_cons k)
        (nl_not_mem_idOcc k) hlO hcO', hInv.len]
      exact hInv.cO k
  · have hfinal : extract_special_blocks md = (stf.result, stf.blocks) := by
      simp only [extract_special_blocks]
      rw [← hstf, if_neg hic]
    rw [hfinal]
    refine ⟨?_, ?_, ?_⟩
    · show stf.blocks.map _ = (List.range stf.blocks.length).map _
      rw [hInv.ids, hInv.len]
    · show countSub IdMarker stf.result = stf.blocks.length
      rw [hInv.cM]
      exact hInv.len.symm
    · intro k
      show countSub (idOcc k) stf.result =
        if k < stf.blocks.length then 1 else 0
      rw [hInv.len]
      exact hInv.cO k

theorem c2_witness :
    countSub IdMarker "```mermaid\nA\n```\n```chart\nB\n```".data = 0 ∧
    ((extract_special_blocks
        "```mermaid\nA\n```\n```chart\nB\n```".data).2.map
          SpecialBlock.placeholder_id
      = (List.range (extract_special_blocks
          "```mermaid\nA\n```\n```chart\nB\n```".data).2.length).map
            placeholderId
    ∧ countSub IdMarker (extract_special_blocks
          "```mermaid\nA\n```\n```chart\nB\n```".data).1
        = (extract_special_blocks
            "```mermaid\nA\n```\n```chart\nB\n```".data).2.length
    ∧ (∀ k, countSub (idOcc k) (extract_special_blocks
          "```mermaid\nA\n```\n```chart\nB\n```".data).1
        = if k < (extract_special_blocks
            "```mermaid\nA\n```\n```chart\nB\n```".data).2.length
          then 1 else 0)) :=
  ⟨by decide, c2_placeholder_ids_and_occurrences _ (by decide)⟩

/-- An input whose first line is, verbatim, the text of a placeholder
div; the line passes through extraction unchanged, so the id
`special-block-0` ends up twice in the processed output while the block
list has a single entry carrying it. -/
def mdC2 : Str :=
  "<div class=\"special-block mermaid\" id=\"special-block-0\" data-block-type=\"mermaid\"></div>\n```mermaid\nx\n```".data

/-- C2 counterexample: the input `mdC2` yields exactly one `SpecialBlock`
(with placeholder id `special-block-0`), but that placeholder id occurs
twice in the processed markdown, so the claimed exactly-one
correspondence between placeholder ids in the output and entries of the
block list fails as stated. -/
theorem c2_counterexample :
    (extract_special_blocks mdC2).2.map SpecialBlock.placeholder_id
      = ["special-block-0".data]
    ∧ countSub (idOcc 0) (extract_special_blocks mdC2).1 = 2 := by decide

/-! ## Fence-marker exclusivity -/

theorem prefix_bt_not_td {l : Str} (h : btFence.isPrefixOf l = true) :
    tdFence.isPrefixOf l = false := by
  cases l with
  | nil => simp [btFence, List.isPrefixOf] at h
  | cons c t =>
    have h' : ('`' == c) = true ∧
        List.isPrefixOf ('`' :: '`' :: []) t = true := by
      have h2 : List.isPrefixOf ('`' :: '`' :: '`' :: []) (c :: t) = true := h
      simpa [List.isPrefixOf, Bool.and_eq_true] using h2
    obtain rfl := (eq_of_beq h'.1).symm
    have hne : ('~' == '`') = false := by decide
    show List.isPrefixOf ('~' :: '~' :: '~' :: []) ('`' :: t) = false
    simp [List.isPrefixOf, hne]

theorem prefix_td_not_bt {l : Str} (h : tdFence.isPrefixOf l = true) :
    btFence.isPrefixOf l = false := by
  cases l with
  | nil => simp [tdFence, List.isPrefixOf] at h
  | cons c t =>
    have h' : ('~' == c) = true ∧
        List.isPrefixOf ('~' :: '~' :: []) t = true := by
      have h2 : List.isPrefixOf ('~' :: '~' :: '~' :: []) (c :: t) = true := h
      simpa [List.isPrefixOf, Bool.and_eq_true] using h2
    obtain rfl := (eq_of_beq h'.1).symm
    have hne : ('`' == '~') = false := by decide
    show List.isPrefixOf ('`' :: '`' :: '`' :: []) ('~' :: t) = false
    simp [List.isPrefixOf, hne]

/-- C3: while the scanner is inside an open fence, a line whose trimmed
text begins with the *other* fence marker is appended to the buffered
content as ordinary content — it neither closes the open fence nor opens
a new one — and the scanner leaves the fence only on a line whose trimmed
text begins with the same marker that opened it. -/
theorem c3_mismatched_marker_is_content (st : ExtractState) (line : Str)
    (hic : st.in_code_block = true)
    (hmis : (btFence.isPrefixOf (trimStartL line) = true
        ∧ st.code_fence = tdFence)
      ∨ (tdFence.isPrefixOf (trimStartL line) = true
        ∧ st.code_fence = btFence)) :
    processLine st line =
      { st with code_content := st.code_content ++ line ++ ['\n'] }
    ∧ (∀ l2 : Str, (processLine st l2).in_code_block = false →
        st.code_fence.isPrefixOf (trimStartL l2) = true) := by
  constructor
  · rcases hmis with ⟨hb, hf⟩ | ⟨ht, hf⟩
    · refine processLine_mismatch (Or.inl hb) hic ?_
      rw [hf]
      exact prefix_bt_not_td hb
    · refine processLine_mismatch (Or.inr ht) hic ?_
      rw [hf]
      exact prefix_td_not_bt ht
  · intro l2 hclosed
    by_cases hcp : st.code_fence.isPrefixOf (trimStartL l2) = true
    · exact hcp
    · exfalso
      by_cases hfl : btFence.isPrefixOf (trimStartL l2) = true ∨
          tdFence.isPrefixOf (trimStartL l2) = true
      · rw [processLine_mismatch hfl hic (Bool.not_eq_true _ ▸ hcp)]
          at hclosed
        have h2 : st.in_code_block = false := hclosed
        rw [hic] at h2
        exact absurd h2 (by decide)
      · push_neg at hfl
        rw [processLine_contentLine (Bool.not_eq_true _ ▸ hfl.1)
          (Bool.not_eq_true _ ▸ hfl.2) hic] at hclosed
        have h2 : st.in_code_block = false := hclosed
        rw [hic] at h2
        exact absurd h2 (by decide)

/-- Fixed scanner state used by the C3 witness: inside an open backtick
fence. -/
def stC3 : ExtractState :=
  { blocks := []
    result := "intro\n".data
    in_code_block := true
    code_fence := btFence
    code_lang := "mermaid".data
    code_content := "a --> b\n".data
    block_counter := 0 }

theorem c3_witness :
    (stC3.in_code_block = true ∧
      ((btFence.isPrefixOf (trimStartL "~~~tilde".data) = true
          ∧ stC3.code_fence = tdFence)
        ∨ (tdFence.isPrefixOf (trimStartL "~~~tilde".data) = true
          ∧ stC3.code_fence = btFence)))
    ∧ (processLine stC3 "~~~tilde".data =
        { stC3 with code_content :=
            stC3.code_content ++ "~~~tilde".data ++ ['\n'] }
      ∧ (∀ l2 : Str, (processLine stC3 l2).in_code_block = false →
          stC3.code_fence.isPrefixOf (trimStartL l2) = true)) :=
  ⟨⟨rfl, by decide⟩,
    c3_mismatched_marker_is_content stC3 "~~~tilde".data rfl (by decide)⟩

/-- C9: while inside an open fence, any line whose trimmed text begins
with the same marker that opened it closes the fence, whatever follows
the marker on the line — processing such a line is indistinguishable
from processing a bare fence line (the trailing text is discarded). -/
theorem c9_same_marker_closes (st : ExtractState) (line : Str)
    (hic : st.in_code_block = true)
    (hcf : st.code_fence = btFence ∨ st.code_fence = tdFence)
    (hpre : st.code_fence.isPrefixOf (trimStartL line) = true) :
    (processLine st line).in_code_block = false
    ∧ processLine st line = processLine st st.code_fence := by
  have hpre2 : st.code_fence.isPrefixOf (trimStartL st.code_fence) = true := by
    rcases hcf with h | h <;> rw [h] <;> decide
  by_cases hres : toLowerL st.code_lang = "mermaid".data ∨
      toLowerL st.code_lang = "chart".data
  · rw [processLine_close_reserved hic hcf hpre hres,
      processLine_close_reserved hic hcf hpre2 hres]
    exact ⟨rfl, rfl⟩
  · rw [processLine_close_regular hic hcf hpre hres,
      processLine_close_regular hic hcf hpre2 hres]
    exact ⟨rfl, rfl⟩

/-- Fixed scanner state used by the C9 witness: inside an open backtick
fence with a `rust` tag. -/
def stC9 : ExtractState :=
  { blocks := []
    result := []
    in_code_block := true
    code_fence := btFence
    code_lang := "rust".data
    code_content := "fn main() {}\n".data
    block_counter := 0 }

theorem c9_witness :
    (stC9.in_code_block = true
      ∧ (stC9.code_fence = btFence ∨ stC9.code_fence = tdFence)
      ∧ stC9.code_fence.isPrefixOf (trimStartL "```rust".data) = true)
    ∧ ((processLine stC9 "```rust".data).in_code_block = false
      ∧ processLine stC9 "```rust".data = processLine stC9 stC9.code_fence) :=
  ⟨⟨rfl, Or.inl rfl, by decide⟩,
    c9_same_marker_closes stC9 "```rust".data rfl (Or.inl rfl) (by decide)⟩

/-! ## Block-level behaviour of the scan (claims C4, C5) -/

/-- The original text of a run of lines: each line with its newline. -/
def joinLines (L : List Str) : Str := (L.map (· ++ ['\n'])).flatten

/-- The fence marker recognized on an opening line. -/
def openedFence (l : Str) : Str :=
  if btFence.isPrefixOf (trimStartL l) then btFence else tdFence

/-- The language tag recognized on an opening line. -/
def openedLang (l : Str) : Str := trimL ((trimStartL l).drop 3)

theorem trimStartL_fence_line {fence : Str} (lang : Str)
    (hf : fence = btFence ∨ fence = tdFence) :
    trimStartL (fence ++ lang) = fence ++ lang := by
  rcases hf with rfl | rfl
  · show List.dropWhile wsChar ('`' :: ('`' :: '`' :: lang)) = _
    rw [List.dropWhile_cons, if_neg (by decide)]
    rfl
  · show List.dropWhile wsChar ('~' :: ('~' :: '~' :: lang)) = _
    rw [List.dropWhile_cons, if_neg (by decide)]
    rfl

theorem bt_not_prefix_td_append (lang : Str) :
    btFence.isPrefixOf (tdFence ++ lang) = false := by
  have h : ('`' == '~') = false := by decide
  show List.isPrefixOf ('`' :: '`' :: '`' :: []) ('~' :: _) = false
  simp [List.isPrefixOf, h]

theorem processLine_open_fence_line {st : ExtractState} {fence : Str}
    (lang : Str) (hic : st.in_code_block = false)
    (hf : fence = btFence ∨ fence = tdFence) (hlang : trimL lang = lang) :
    processLine st (fence ++ lang) =
      { st with
        in_code_block := true
        code_fence := fence
        code_lang := lang } := by
  have htr := trimStartL_fence_line lang hf
  rcases hf with rfl | rfl
  · rw [processLine_open
      (Or.inl (by rw [htr]; exact isPrefixOf_self_append _ _)) hic, htr]
    have hdrop : (btFence ++ lang).drop 3 = lang := List.drop_left btFence lang
    simp only [isPrefixOf_self_append, hdrop, hlang]
    simp
  · rw [processLine_open
      (Or.inr (by rw [htr]; exact isPrefixOf_self_append _ _)) hic, htr]
    have hdrop : (tdFence ++ lang).drop 3 = lang := List.drop_left tdFence lang
    simp only [bt_not_prefix_td_append, hdrop, hlang]
    simp

/-- The two facts about reachable scanner states needed for the
block-level theorems: a closed state buffers no content, and an open
state's stored fence is one of the two markers. -/
structure ReachInv (st : ExtractState) : Prop where
  content_nil : st.in_code_block = false → st.code_content = []
  fenceKind : st.in_code_block = true →
    st.code_fence = btFence ∨ st.code_fence = tdFence

theorem ReachInv_processLine {st : ExtractState} (l : Str)
    (h : ReachInv st) : ReachInv (processLine st l) := by
  by_cases hfl : btFence.isPrefixOf (trimStartL l) = true ∨
      tdFence.isPrefixOf (trimStartL l) = true
  · by_cases hic : st.in_code_block = true
    · by_cases hcp : st.code_fence.isPrefixOf (trimStartL l) = true
      · have hcf := h.fenceKind hic
        by_cases hres : toLowerL st.code_lang = "mermaid".data ∨
            toLowerL st.code_lang = "chart".data
        · rw [processLine_close_reserved hic hcf hcp hres]
          exact ⟨fun _ => rfl,
            fun hh => absurd (show (false : Bool) = true from hh) (by decide)⟩
        · rw [processLine_close_regular hic hcf hcp hres]
          exact ⟨fun _ => rfl,
            fun hh => absurd (show (false : Bool) = true from hh) (by decide)⟩
      · rw [processLine_mismatch hfl hic (Bool.not_eq_true _ ▸ hcp)]
        refine ⟨fun hh => ?_, fun _ => h.fenceKind hic⟩
        have hh2 : st.in_code_block = false := hh
        rw [hic] at hh2
        exact absurd hh2 (by decide)
    · rw [processLine_open hfl (Bool.not_eq_true _ ▸ hic)]
      refine ⟨fun hh =>
        absurd (show (true : Bool) = false from hh) (by decide), fun _ => ?_⟩
      by_cases hb : btFence.isPrefixOf (trimStartL l) = true
      · left; simp [hb]
      · right; simp [hb]
  · push_neg at hfl
    by_cases hic : st.in_code_block = true
    · rw [processLine_contentLine (Bool.not_eq_true _ ▸ hfl.1)
        (Bool.not_eq_true _ ▸ hfl.2) hic]
      refine ⟨fun hh => ?_, fun _ => h.fenceKind hic⟩
      have hh2 : st.in_code_block = false := hh
      rw [hic] at hh2
      exact absurd hh2 (by decide)
    · rw [processLine_outside (Bool.not_eq_true _ ▸ hfl.1)
        (Bool.not_eq_true _ ▸ hfl.2) (Bool.not_eq_true _ ▸ hic)]
      exact ⟨fun _ => h.content_nil (Bool.not_eq_true _ ▸ hic), h.fenceKind⟩

theorem ReachInv_foldl (lines : List Str) :
    ReachInv (lines.foldl processLine initState) := by
  have hbase : ReachInv initState :=
    ⟨fun _ => rfl, fun hh => by simp [initState] at hh⟩
  have hstep : ∀ (st : ExtractState), ReachInv st →
      ∀ (ls : List Str), ReachInv (ls.foldl processLine st) := by
    intro st hst ls
    induction ls generalizing st with
    | nil => exact hst
    | cons l ls ih => exact ih _ (ReachInv_processLine l hst)
  exact hstep _ hbase lines

theorem contentFold {content : List Str} {st : ExtractState}
    (hic : st.in_code_block = true)
    (hcontent : ∀ l ∈ content,
      st.code_fence.isPrefixOf (trimStartL l) = false) :
    content.foldl processLine st =
      { st with code_content := st.code_content ++ joinLines content } := by
  induction content generalizing st with
  | nil => simp [joinLines]
  | cons l ls ih =>
    rw [List.foldl_cons]
    have hstep : processLine st l =
        { st with code_content := st.code_content ++ l ++ ['\n'] } := by
      by_cases hfl : btFence.isPrefixOf (trimStartL l) = true ∨
          tdFence.isPrefixOf (trimStartL l) = true
      · exact processLine_mismatch hfl hic (hcontent l (by simp))
      · push_neg at hfl
        exact processLine_contentLine (Bool.not_eq_true _ ▸ hfl.1)
          (Bool.not_eq_true _ ▸ hfl.2) hic
    rw [hstep]
    have hrec := @ih
      { st with code_content := st.code_content ++ l ++ ['\n'] }
      hic (fun x hx => hcontent x (by simp [hx]))
    rw [hrec]
    simp [joinLines, List.append_assoc]

theorem blockFold_regular {st : ExtractState} {fence lang : Str}
    (content post : List Str)
    (hic : st.in_code_block = false)
    (hf : fence = btFence ∨ fence = tdFence)
    (hlang : trimL lang = lang)
    (hm : toLowerL lang ≠ "mermaid".data)
    (hc : toLowerL lang ≠ "chart".data)
    (hcontent : ∀ l ∈ content, fence.isPrefixOf (trimStartL l) = false) :
    List.foldl processLine st
        ((fence ++ lang) :: (content ++ fence :: post)) =
      List.foldl processLine
        { st with
          result := st.result ++ fence ++ lang ++ '\n' ::
            (st.code_content ++ joinLines content ++ fence ++ ['\n'])
          in_code_block := false
          code_fence := []
          code_lang := []
          code_content := [] } post := by
  have hself : fence.isPrefixOf (trimStartL fence) = true := by
    rcases hf with rfl | rfl <;> decide
  rw [List.foldl_cons, processLine_open_fence_line lang hic hf hlang,
    List.foldl_append]
  rw [@contentFold content
    { st with
      in_code_block := true
      code_fence := fence
      code_lang := lang } rfl hcontent]
  rw [List.foldl_cons]
  rw [@processLine_close_regular
    { st with
      in_code_block := true
      code_fence := fence
      code_lang := lang
      code_content := st.code_content ++ joinLines content } _
    rfl hf hself (fun h => h.elim hm hc)]

/-- C4 (amended): a closed fenced block with a non-reserved tag whose
lines are in canonical form — the opening line is the marker immediately
followed by the already-trimmed tag, the closing line is exactly the
marker, and no buffered line left-trims to the same marker — is
reproduced byte-identically in the processed output: the scan appends
exactly the original block lines, each with its newline, touches nothing
else, and continues; and every line outside a fence that is not a fence
marker line passes through byte-for-byte (modulo the line-ending
normalization already performed by the line iterator).  The original
claim's stronger form — byte-identity for *all* closed non-reserved
fences — fails for non-canonical fence lines (see the counterexample). -/
theorem c4_regular_fence_roundtrip :
    (∀ (md : Str) (pre : List Str) (fence lang : Str)
        (content post : List Str),
      rustLines md = pre ++ (fence ++ lang) :: (content ++ fence :: post) →
      (fence = btFence ∨ fence = tdFence) →
      trimL lang = lang →
      toLowerL lang ≠ "mermaid".data →
      toLowerL lang ≠ "chart".data →
      (∀ l ∈ content, fence.isPrefixOf (trimStartL l) = false) →
      (List.foldl processLine initState pre).in_code_block = false →
      (rustLines md).foldl processLine initState =
        List.foldl processLine
          { List.foldl processLine initState pre with
            result := (List.foldl processLine initState pre).result ++
              joinLines ((fence ++ lang) :: (content ++ [fence]))
            in_code_block := false
            code_fence := []
            code_lang := []
            code_content := [] } post)
    ∧ (∀ (st : ExtractState) (l : Str), st.in_code_block = false →
        btFence.isPrefixOf (trimStartL l) = false →
        tdFence.isPrefixOf (trimStartL l) = false →
        processLine st l = { st with result := st.result ++ l ++ ['\n'] }) := by
  constructor
  · intro md pre fence lang content post hsplit hf hlang hm hc hcontent hpre0
    have hcc := (ReachInv_foldl pre).content_nil hpre0
    rw [hsplit, List.foldl_append,
      blockFold_regular content post hpre0 hf hlang hm hc hcontent]
    congr 1
    simp [joinLines, hcc, List.append_assoc]
  · exact fun st l hic hbt htd => processLine_outside hbt htd hic

/-- C4 counterexample: a closed `rust` fence whose opening line is
indented.  The block is closed and non-reserved, yet its opening fence
line `"  ```rust"` does not survive into the processed output (the
re-emitted line drops the indentation), refuting byte-identical
reproduction as stated. -/
theorem c4_counterexample :
    extract_special_blocks "  ```rust\nx\n```".data =
      ("```rust\nx\n```\n".data, [])
    ∧ countSub "  ```rust".data
        (extract_special_blocks "  ```rust\nx\n```".data).1 = 0 := by decide

theorem c4_witness :
    (rustLines "intro\n```rust\ncode line\n```\nafter".data =
        ["intro".data] ++ (btFence ++ "rust".data) ::
          (["code line".data] ++ btFence :: ["after".data])
      ∧ trimL "rust".data = "rust".data
      ∧ toLowerL "rust".data ≠ "mermaid".data
      ∧ toLowerL "rust".data ≠ "chart".data
      ∧ (∀ l ∈ ["code line".data],
          btFence.isPrefixOf (trimStartL l) = false)
      ∧ (List.foldl processLine initState
          ["intro".data]).in_code_block = false)
    ∧ (rustLines "intro\n```rust\ncode line\n```\nafter".data).foldl
        processLine initState =
      List.foldl processLine
        { List.foldl processLine initState ["intro".data] with
          result := (List.foldl processLine initState
              ["intro".data]).result
            ++ joinLines ((btFence ++ "rust".data) ::
              (["code line".data] ++ [btFence]))
          in_code_block := false
          code_fence := []
          code_lang := []
          code_content := [] } ["after".data] :=
  ⟨by decide, c4_regular_fence_roundtrip.1 _ _ _ _ _ _ (by decide)
    (Or.inl rfl) (by decide) (by decide) (by decide) (by decide) (by decide)⟩

/-- C5: an input that ends while a fence is still open (reserved tag or
not) never produces an error: `extract_special_blocks` returns normally,
adds no `SpecialBlock` for the unclosed fence, and flushes the buffered
fence — opening marker, language tag, and the buffered content lines
verbatim — into the processed output. -/
theorem c5_unclosed_fence_flush (md : Str) (pre : List Str)
    (openLine : Str) (content : List Str)
    (hsplit : rustLines md = pre ++ openLine :: content)
    (hfl : btFence.isPrefixOf (trimStartL openLine) = true ∨
      tdFence.isPrefixOf (trimStartL openLine) = true)
    (hcontent : ∀ l ∈ content,
      (openedFence openLine).isPrefixOf (trimStartL l) = false)
    (hpre0 : (List.foldl processLine initState pre).in_code_block = false) :
    extract_special_blocks md =
      ((List.foldl processLine initState pre).result ++
        (openedFence openLine ++ openedLang openLine ++ '\n' ::
          joinLines content),
       (List.foldl processLine initState pre).blocks) := by
  have hcc := (ReachInv_foldl pre).content_nil hpre0
  have h1 : processLine (List.foldl processLine initState pre) openLine =
      { List.foldl processLine initState pre with
        in_code_block := true
        code_fence := openedFence openLine
        code_lang := openedLang openLine } := by
    rw [processLine_open hfl hpre0]
    rfl
  have h2 := @contentFold content
    { List.foldl processLine initState pre with
      in_code_block := true
      code_fence := openedFence openLine
      code_lang := openedLang openLine } rfl hcontent
  simp only [extract_special_blocks]
  rw [hsplit, List.foldl_append, List.foldl_cons, h1, h2, if_pos rfl]
  simp [hcc, List.append_assoc]

theorem c5_witness :
    (rustLines "intro\n```mermaid\ngraph TD".data =
        ["intro".data] ++ "```mermaid".data :: ["graph TD".data]
      ∧ (btFence.isPrefixOf (trimStartL "```mermaid".data) = true ∨
          tdFence.isPrefixOf (trimStartL "```mermaid".data) = true)
      ∧ (∀ l ∈ ["graph TD".data],
          (openedFence "```mermaid".data).isPrefixOf (trimStartL l) = false)
      ∧ (List.foldl processLine initState
          ["intro".data]).in_code_block = false)
    ∧ extract_special_blocks "intro\n```mermaid\ngraph TD".data =
      ((List.foldl processLine initState ["intro".data]).result ++
        (openedFence "```mermaid".data ++ openedLang "```mermaid".data ++
          '\n' :: joinLines ["graph TD".data]),
       (List.foldl processLine initState ["intro".data]).blocks) :=
  ⟨by decide, c5_unclosed_fence_flush _ _ _ _ (by decide)
    (Or.inl (by decide)) (by decide) (by decide)⟩

/-! ## Claims about the image path resolver (C6, C10) -/

theorem isPrefixOf_false_head {a b : Char} {pt t : Str} (hne : a ≠ b) :
    (a :: pt).isPrefixOf (b :: t) = false := by
  have h : (a == b) = false := beq_eq_false_iff_ne.mpr hne
  simp [List.isPrefixOf, h]

theorem isPrefixOf_head {a : Char} {pt l : Str}
    (h : (a :: pt).isPrefixOf l = true) : ∃ t, l = a :: t := by
  cases l with
  | nil => simp [List.isPrefixOf] at h
  | cons b t =>
    simp only [List.isPrefixOf, Bool.and_eq_true, beq_iff_eq] at h
    exact ⟨t, by rw [h.1]⟩

/-- C6 counterexample: a `file://` source is classified as a local path
(the scheme is stripped and the remainder treated as an absolute path),
yet the result is returned bare, without the `__LOCAL_FILE__:` sentinel
marker — refuting the claim that every local-path outcome is wrapped in
the marker. -/
theorem c6_counterexample :
    resolve_single_path (fun _ => none) "file:///pics/a.png".data
        "/docs/readme.md".data = "/pics/a.png".data
    ∧ LOCAL_FILE.isPrefixOf
        (resolve_single_path (fun _ => none) "file:///pics/a.png".data
          "/docs/readme.md".data) = false := by decide

/-- C6 (amended): `resolve_single_path` returns `src` unchanged when it
begins with `http://`, `https://`, `data:` or `asset://`; a src beginning
with `file://` has the scheme stripped and the remainder returned *bare*
(not marker-wrapped); every other outcome — POSIX absolute, drive-letter,
or relative — is wrapped in the `__LOCAL_FILE__:` sentinel marker. -/
theorem c6_resolve_single_path_classification
    (canon : Str → Option Str) (src base_path : Str) :
    ("http://".data.isPrefixOf src = true →
      resolve_single_path canon src base_path = src)
    ∧ ("https://".data.isPrefixOf src = true →
      resolve_single_path canon src base_path = src)
    ∧ ("data:".data.isPrefixOf src = true →
      resolve_single_path canon src base_path = src)
    ∧ ("asset://".data.isPrefixOf src = true →
      resolve_single_path canon src base_path = src)
    ∧ ("file://".data.isPrefixOf src = true →
      resolve_single_path canon src base_path = src.drop 7)
    ∧ ("http://".data.isPrefixOf src = false →
      "https://".data.isPrefixOf src = false →
      "data:".data.isPrefixOf src = false →
      "asset://".data.isPrefixOf src = false →
      "file://".data.isPrefixOf src = false →
      LOCAL_FILE.isPrefixOf
        (resolve_single_path canon src base_path) = true) := by
  refine ⟨?_, ?_, ?_, ?_, ?_, ?_⟩
  · intro h
    simp [resolve_single_path, h]
  · intro h
    simp [resolve_single_path, h]
  · intro h
    obtain ⟨t, rfl⟩ := isPrefixOf_head h
    have h1 : "http://".data.isPrefixOf ('d' :: t) = false :=
      isPrefixOf_false_head (by decide)
    have h2 : "https://".data.isPrefixOf ('d' :: t) = false :=
      isPrefixOf_false_head (by decide)
    simp [resolve_single_path, h, h1, h2]
  · intro h
    obtain ⟨t, rfl⟩ := isPrefixOf_head h
    have h1 : "http://".data.isPrefixOf ('a' :: t) = false :=
      isPrefixOf_false_head (by decide)
    have h2 : "https://".data.isPrefixOf ('a' :: t) = false :=
      isPrefixOf_false_head (by decide)
    have h3 : "data:".data.isPrefixOf ('a' :: t) = false :=
      isPrefixOf_false_head (by decide)
    simp [resolve_single_path, h, h1, h2, h3]
  · intro h
    obtain ⟨t, rfl⟩ := isPrefixOf_head h
    have h1 : "http://".data.isPrefixOf ('f' :: t) = false :=
      isPrefixOf_false_head (by decide)
    have h2 : "https://".data.isPrefixOf ('f' :: t) = false :=
      isPrefixOf_false_head (by decide)
    have h3 : "data:".data.isPrefixOf ('f' :: t) = false :=
      isPrefixOf_false_head (by decide)
    have h4 : "asset://".data.isPrefixOf ('f' :: t) = false :=
      isPrefixOf_false_head (by decide)
    simp [resolve_single_path, h, h1, h2, h3, h4]
  · intro h1 h2 h3 h4 h5
    simp only [resolve_single_path, h1, h2, h3, h4, h5, Bool.or_self,
      Bool.false_eq_true, if_false]
    split_ifs <;> exact isPrefixOf_self_append _ _

theorem c6_witness :
    ("http://".data.isPrefixOf "/a.png".data = false
      ∧ "https://".data.isPrefixOf "/a.png".data = false
      ∧ "data:".data.isPrefixOf "/a.png".data = false
      ∧ "asset://".data.isPrefixOf "/a.png".data = false
      ∧ "file://".data.isPrefixOf "/a.png".data = false)
    ∧ LOCAL_FILE.isPrefixOf (resolve_single_path (fun _ => none)
        "/a.png".data "/docs/readme.md".data) = true :=
  ⟨⟨by decide, by decide, by decide, by decide, by decide⟩,
    (c6_resolve_single_path_classification (fun _ => none)
      "/a.png".data "/docs/readme.md".data).2.2.2.2.2 (by decide)
      (by decide) (by decide) (by decide) (by decide)⟩

/-- C10: a source of length at least 2 that matches none of the scheme
prefixes and does not begin with `/`, whose second character is a colon,
is classified as a Windows drive-letter absolute path: backslashes are
normalized to forward slashes and the result is wrapped in the
local-path marker — even when the first character is not a drive letter;
it is never resolved against `base_path`. -/
theorem c10_drive_letter_classification (canon : Str → Option Str)
    (src base_path : Str)
    (h1 : "http://".data.isPrefixOf src = false)
    (h2 : "https://".data.isPrefixOf src = false)
    (h3 : "data:".data.isPrefixOf src = false)
    (h4 : "asset://".data.isPrefixOf src = false)
    (h5 : "file://".data.isPrefixOf src = false)
    (h6 : "/".data.isPrefixOf src = false)
    (h7 : 2 ≤ src.length) (h8 : src.get? 1 = some ':') :
    resolve_single_path canon src base_path =
      LOCAL_FILE ++ src.map (fun c => if c = '\\' then '/' else c) := by
  have h8' : src[1]? = some ':' := by
    simpa [List.get?_eq_getElem?] using h8
  simp [resolve_single_path, h1, h2, h3, h4, h5, h6, h7, h8']

theorem c10_witness :
    ("http://".data.isPrefixOf "a:b.png".data = false
      ∧ "https://".data.isPrefixOf "a:b.png".data = false
      ∧ "data:".data.isPrefixOf "a:b.png".data = false
      ∧ "asset://".data.isPrefixOf "a:b.png".data = false
      ∧ "file://".data.isPrefixOf "a:b.png".data = false
      ∧ "/".data.isPrefixOf "a:b.png".data = false
      ∧ 2 ≤ "a:b.png".data.length
      ∧ "a:b.png".data.get? 1 = some ':')
    ∧ resolve_single_path (fun _ => none) "a:b.png".data "/d/f.md".data =
      LOCAL_FILE ++ "a:b.png".data.map
        (fun c => if c = '\\' then '/' else c) :=
  ⟨⟨by decide, by decide, by decide, by decide, by decide, by decide,
    by decide, by decide⟩,
    c10_drive_letter_classification (fun _ => none) "a:b.png".data
      "/d/f.md".data (by decide) (by decide) (by decide) (by decide)
      (by decide) (by decide) (by decide) (by decide)⟩

/-! ## The orchestration claim (C1) -/

/-- C1: for every markdown string and options (and every Markdown engine
`renderHtml` and filesystem oracle `canon`), `render_markdown` returns
`Ok` of a `RenderResult` whose `special_blocks` are exactly the blocks
produced by `extract_special_blocks` (verbatim) and whose `html` is the
engine's output on the processed markdown, post-processed by
`resolve_image_paths` exactly when `options.base_path` is present. -/
theorem c1_render_markdown_pipeline (renderHtml : Str → Str)
    (canon : Str → Option Str) (markdown : Str)
    (options : RenderOptions) :
    render_markdown renderHtml canon markdown options =
      Except.ok
        { html :=
            match options.base_path with
            | some bp => resolve_image_paths canon
                (renderHtml (extract_special_blocks markdown).1) bp
            | none => renderHtml (extract_special_blocks markdown).1
          special_blocks := (extract_special_blocks markdown).2 } := rfl

/-! ## The adapter hook claim (C8) -/

/-- The spec's serialization, following its words: "space-separated
`name="value"` pairs", in the order in which the map iteration presents
the attributes. -/
def attrsSerialSpec (attributes : List (Str × Str)) : Str :=
  (attributes.map
    (fun kv => ' ' :: (kv.1 ++ '=' :: '"' :: (kv.2 ++ ['"'])))).flatten

theorem attrs_foldl_eq (attributes : List (Str × Str)) (acc : Str) :
    attributes.foldl
        (fun acc kv =>
          acc ++ ' ' :: (kv.1 ++ '=' :: '"' :: (kv.2 ++ ['"']))) acc =
      acc ++ attrsSerialSpec attributes := by
  induction attributes generalizing acc with
  | nil => simp [attrsSerialSpec]
  | cons kv rest ih =>
    rw [List.foldl_cons, ih]
    simp [attrsSerialSpec, List.append_assoc]

/-- C8 counterexample: two attribute mappings that are equal as unordered
mappings (permutations of one another) serialize to different strings,
refuting the claim that equal attribute mappings always produce the same
serialized tag. -/
theorem c8_counterexample :
    List.Perm [("a".data, "1".data), ("b".data, "2".data)]
        [("b".data, "2".data), ("a".data, "1".data)]
    ∧ write_pre_tag [("a".data, "1".data), ("b".data, "2".data)] ≠
      write_pre_tag [("b".data, "2".data), ("a".data, "1".data)] := by
  decide

/-- C8 (amended): the serialization of `write_pre_tag`/`write_code_tag`
is a function of the attribute *sequence* in the map's iteration order:
each pair is emitted as a space-prefixed `name="value"` fragment, in
sequence order, between `<pre`/`<code` and `>`.  Determinism holds per
iteration sequence only; the underlying `HashMap` iteration order is
unspecified, so equal unordered mappings may serialize differently. -/
theorem c8_tag_serialization (attributes : List (Str × Str)) :
    write_pre_tag attributes =
      "<pre".data ++ attrsSerialSpec attributes ++ ['>']
    ∧ write_code_tag attributes =
      "<code".data ++ attrsSerialSpec attributes ++ ['>'] := by
  constructor
  · show "<pre".data ++ (attributes.foldl _ []) ++ ['>'] = _
    rw [attrs_foldl_eq]
    simp
  · show "<code".data ++ (attributes.foldl _ []) ++ ['>'] = _
    rw [attrs_foldl_eq]
    simp

/-! ## Content survival through the highlighter (C7) -/

theorem escapeHtml_no_angle (t : Str) :
    ∀ c ∈ escapeHtml t, c ≠ '<' ∧ c ≠ '>' := by
  induction t with
  | nil => simp [escapeHtml]
  | cons a t ih =>
    intro c hc
    by_cases h1 : a = '&'
    · subst h1
      simp only [escapeHtml, List.foldr_cons, if_pos rfl] at hc
      rcases List.mem_append.mp hc with h | h
      · exact (by decide : ∀ x ∈ ("&amp;".data : Str),
          x ≠ '<' ∧ x ≠ '>') c h
      · exact ih c h
    · by_cases h2 : a = '<'
      · subst h2
        simp only [escapeHtml, List.foldr_cons, if_neg (by decide :
          ¬('<' = '&')), if_pos rfl] at hc
        rcases List.mem_append.mp hc with h | h
        · exact (by decide : ∀ x ∈ ("&lt;".data : Str),
            x ≠ '<' ∧ x ≠ '>') c h
        · exact ih c h
      · by_cases h3 : a = '>'
        · subst h3
          simp only [escapeHtml, List.foldr_cons, if_neg (by decide :
            ¬('>' = '&')), if_neg (by decide : ¬('>' = '<')),
            if_pos rfl] at hc
          rcases List.mem_append.mp hc with h | h
          · exact (by decide : ∀ x ∈ ("&gt;".data : Str),
              x ≠ '<' ∧ x ≠ '>') c h
          · exact ih c h
        · simp only [escapeHtml, List.foldr_cons, if_neg h1, if_neg h2,
            if_neg h3, List.mem_cons] at hc
          rcases hc with rfl | h
          · exact ⟨h2, h3⟩
          · exact ih c h

theorem stripTagsAux_false_append {a : Str}
    (ha : ∀ c ∈ a, c ≠ '<') (r : Str) :
    stripTagsAux false (a ++ r) = a ++ stripTagsAux false r := by
  induction a with
  | nil => rfl
  | cons c t ih =>
    have hc : c ≠ '<' := ha c (by simp)
    show stripTagsAux false (c :: (t ++ r)) = _
    rw [show stripTagsAux false (c :: (t ++ r)) =
        if c = '<' then stripTagsAux true (t ++ r)
        else c :: stripTagsAux false (t ++ r) from rfl,
      if_neg hc, ih (fun x hx => ha x (by simp [hx]))]
    rfl

theorem stripTagsAux_true_append {a : Str}
    (ha : ∀ c ∈ a, c ≠ '>') (r : Str) :
    stripTagsAux true (a ++ r) = stripTagsAux true r := by
  induction a with
  | nil => rfl
  | cons c t ih =>
    have hc : c ≠ '>' := ha c (by simp)
    show stripTagsAux true (c :: (t ++ r)) = _
    rw [show stripTagsAux true (c :: (t ++ r)) =
        if c = '>' then stripTagsAux false (t ++ r)
        else stripTagsAux true (t ++ r) from rfl,
      if_neg hc, ih (fun x hx => ha x (by simp [hx]))]

theorem stripTags_span {cls : Str}
    (hcls : ∀ c ∈ cls, c ≠ '<' ∧ c ≠ '>') (t r : Str) :
    stripTagsAux false (spanHtml cls t ++ r) =
      escapeHtml t ++ stripTagsAux false r := by
  rw [show stripTagsAux false (spanHtml cls t ++ r) =
      stripTagsAux true ((("span class=\"".data ++ cls) ++
        ('"' :: '>' :: (escapeHtml t ++ "</span>".data))) ++ r)
      from rfl]
  rw [List.append_assoc, List.append_assoc,
    stripTagsAux_true_append (by decide),
    stripTagsAux_true_append (fun c hc => (hcls c hc).2)]
  rw [show stripTagsAux true (('"' :: '>' ::
      (escapeHtml t ++ "</span>".data)) ++ r) =
      stripTagsAux false ((escapeHtml t ++ "</span>".data) ++ r)
      from rfl]
  rw [List.append_assoc,
    stripTagsAux_false_append (fun c hc => (escapeHtml_no_angle t c hc).1)]
  rw [show stripTagsAux false ("</span>".data ++ r) =
      stripTagsAux true ("/span".data ++ ('>' :: r)) from rfl,
    stripTagsAux_true_append (by decide)]
  rw [show stripTagsAux true ('>' :: r) = stripTagsAux false r from rfl]

theorem unescape_escape_append (t r : Str) :
    unescapeHtml (escapeHtml t ++ r) = t ++ unescapeHtml r := by
  induction t with
  | nil => rfl
  | cons a t ih =>
    by_cases h1 : a = '&'
    · subst h1
      show unescapeHtml (("&amp;".data ++ escapeHtml t) ++ r) = _
      rw [show (("&amp;".data ++ escapeHtml t) ++ r : Str) =
          '&' :: ("amp;".data ++ (escapeHtml t ++ r)) by
            simp [List.append_assoc]]
      rw [show unescapeHtml ('&' :: ("amp;".data ++ (escapeHtml t ++ r)))
          = '&' :: unescapeHtml (("amp;".data ++
            (escapeHtml t ++ r)).drop 4) by
          rw [unescapeHtml]
          simp [isPrefixOf_self_append]]
      rw [show (("amp;".data ++ (escapeHtml t ++ r)).drop 4 : Str) =
        escapeHtml t ++ r from rfl]
      rw [ih]
      rfl
    · by_cases h2 : a = '<'
      · subst h2
        show unescapeHtml (("&lt;".data ++ escapeHtml t) ++ r) = _
        rw [show (("&lt;".data ++ escapeHtml t) ++ r : Str) =
            '&' :: ("lt;".data ++ (escapeHtml t ++ r)) by
              simp [List.append_assoc]]
        rw [show unescapeHtml ('&' :: ("lt;".data ++ (escapeHtml t ++ r)))
            = '<' :: unescapeHtml (("lt;".data ++
              (escapeHtml t ++ r)).drop 3) by
            rw [unescapeHtml]
            have hamp : "amp;".data.isPrefixOf
                ("lt;".data ++ (escapeHtml t ++ r)) = false :=
              isPrefixOf_false_head (a := 'a') (b := 'l') (by decide)
            simp [hamp, isPrefixOf_self_append]]
        rw [show (("lt;".data ++ (escapeHtml t ++ r)).drop 3 : Str) =
          escapeHtml t ++ r from rfl]
        rw [ih]
        rfl
      · by_cases h3 : a = '>'
        · subst h3
          show unescapeHtml (("&gt;".data ++ escapeHtml t) ++ r) = _
          rw [show (("&gt;".data ++ escapeHtml t) ++ r : Str) =
              '&' :: ("gt;".data ++ (escapeHtml t ++ r)) by
                simp [List.append_assoc]]
          rw [show unescapeHtml ('&' ::
              ("gt;".data ++ (escapeHtml t ++ r)))
              = '>' :: unescapeHtml (("gt;".data ++
                (escapeHtml t ++ r)).drop 3) by
              rw [unescapeHtml]
              have hamp : "amp;".data.isPrefixOf
                  ("gt;".data ++ (escapeHtml t ++ r)) = false :=
                isPrefixOf_false_head (a := 'a') (b := 'g') (by decide)
              have hlt : "lt;".data.isPrefixOf
                  ("gt;".data ++ (escapeHtml t ++ r)) = false :=
                isPrefixOf_false_head (a := 'l') (b := 'g') (by decide)
              simp [hamp, hlt, isPrefixOf_self_append]]
          rw [show (("gt;".data ++ (escapeHtml t ++ r)).drop 3 : Str) =
            escapeHtml t ++ r from rfl]
          rw [ih]
          rfl
        · show unescapeHtml ((if a = '&' then "&amp;".data ++ escapeHtml t
              else if a = '<' then "&lt;".data ++ escapeHtml t
              else if a = '>' then "&gt;".data ++ escapeHtml t
              else a :: escapeHtml t) ++ r) = a :: t ++ unescapeHtml r
          rw [if_neg h1, if_neg h2, if_neg h3]
          show unescapeHtml (a :: (escapeHtml t ++ r)) = _
          rw [unescapeHtml, if_neg h1, ih]
          rfl

theorem su_span {cls : Str} (hcls : ∀ c ∈ cls, c ≠ '<' ∧ c ≠ '>')
    (t r : Str) :
    unescapeHtml (stripTagsAux false (spanHtml cls t ++ r)) =
      t ++ unescapeHtml (stripTagsAux false r) := by
  rw [stripTags_span hcls, unescape_escape_append]

theorem su_spans (toks : List (Str × Str))
    (hcls : ∀ kv ∈ toks, ∀ c ∈ kv.1, c ≠ '<' ∧ c ≠ '>') (r : Str) :
    unescapeHtml (stripTagsAux false
        ((toks.map (fun kv => spanHtml kv.1 kv.2)).flatten ++ r)) =
      (toks.map (fun kv => kv.2)).flatten ++
        unescapeHtml (stripTagsAux false r) := by
  induction toks with
  | nil => simp
  | cons kv toks ih =>
    simp only [List.map_cons, List.flatten_cons, List.append_assoc]
    rw [su_span (hcls kv (by simp)),
      ih (fun x hx => hcls x (by simp [hx]))]

theorem su_lines (g : GrammarDef)
    (hcls : ∀ line kv, kv ∈ g.tokenize line → ∀ c ∈ kv.1, c ≠ '<' ∧ c ≠ '>')
    (htok : ∀ line, ((g.tokenize line).map (fun kv => kv.2)).flatten = line)
    (ls : List Str) (r : Str) :
    unescapeHtml (stripTagsAux false ((ls.map (lineHtml g)).flatten ++ r)) =
      ls.flatten ++ unescapeHtml (stripTagsAux false r) := by
  induction ls with
  | nil => simp
  | cons l ls ih =>
    simp only [List.map_cons, List.flatten_cons, List.append_assoc]
    rw [show lineHtml g l =
        ((g.tokenize l).map (fun kv => spanHtml kv.1 kv.2)).flatten
        from rfl,
      su_spans (g.tokenize l) (hcls l), htok l, ih]

theorem foldl_append_flatten {α : Type} (f : α → Str) (L : List α)
    (acc : Str) :
    L.foldl (fun a x => a ++ f x) acc = acc ++ (L.map f).flatten := by
  induction L generalizing acc with
  | nil => simp
  | cons x L ih => simp [List.foldl_cons, ih, List.append_assoc]

/-- C7: for every code string and every language identifier,
`highlight_code` resolves the grammar by exact token first, then file
extension, then the plain-text fallback, and returns normally; and for
any resolved grammar whose tokenizer covers each line with
angle-bracket-free class names, the input's textual content survives
into the output HTML (escaping aside): stripping the tags and undoing
the HTML escaping recovers the code byte for byte. -/
theorem c7_highlight_fallback_and_content
    (reg : GrammarRegistry) (code lang : Str)
    (hcls : ∀ line kv, kv ∈ (findGrammar reg lang).tokenize line →
      ∀ c ∈ kv.1, c ≠ '<' ∧ c ≠ '>')
    (htok : ∀ line,
      (((findGrammar reg lang).tokenize line).map
        (fun kv => kv.2)).flatten = line) :
    (∀ gd, reg.find_by_token lang = some gd → findGrammar reg lang = gd) ∧
    (reg.find_by_token lang = none →
      ∀ gd, reg.find_by_extension lang = some gd →
        findGrammar reg lang = gd) ∧
    (reg.find_by_token lang = none → reg.find_by_extension lang = none →
      findGrammar reg lang = reg.plain_text) ∧
    unescapeHtml (stripTags (highlight_code reg code lang)) = code := by
  refine ⟨?_, ?_, ?_, ?_⟩
  · intro gd hg
    simp [findGrammar, hg, Option.orElse]
  · intro hn gd hg
    simp [findGrammar, hn, hg, Option.orElse]
  · intro hn he
    simp [findGrammar, hn, he, Option.orElse]
  · rw [show highlight_code reg code lang =
        (linesWithEndings code).foldl
          (fun acc line => acc ++ lineHtml (findGrammar reg lang) line) []
        from rfl,
      foldl_append_flatten, List.nil_append]
    rw [show stripTags (((linesWithEndings code).map
        (lineHtml (findGrammar reg lang))).flatten) =
        stripTagsAux false (((linesWithEndings code).map
          (lineHtml (findGrammar reg lang))).flatten ++ []) by
        rw [List.append_nil]; rfl]
    rw [su_lines (findGrammar reg lang) hcls htok (linesWithEndings code) []]
    rw [flatten_linesWithEndings]
    simp [unescapeHtml, stripTagsAux]

/-- Concrete registry for the C7 witness: no token or extension hits,
plain-text grammar emitting one classless token per line. -/
def c7reg : GrammarRegistry where
  find_by_token := fun _ => none
  find_by_extension := fun _ => none
  plain_text := ⟨fun l => [([], l)]⟩

theorem c7_witness :
    unescapeHtml (stripTags
      (highlight_code c7reg "a<b&c\nd>e".data "nolang".data)) =
      "a<b&c\nd>e".data :=
  (c7_highlight_fallback_and_content c7reg "a<b&c\nd>e".data "nolang".data
    (by intro line kv hkv c hc
        rcases List.mem_singleton.mp hkv with rfl
        simp at hc)
    (by intro line; simp [c7reg, findGrammar, Option.orElse])).2.2.2
